import Mathlib

/-!
# Verification of the MCTS-based table question answering core

This file is a shallow embedding, in Lean 4, of the search-and-selection core
of the `tqa-agent` repository:

* `core/table_context.py`   — `TableContext`, header normalisation, `resolve_col`;
* `core/reasoning_context.py` — `ReasoningContext` and `fork`;
* `core/trace.py`           — `TraceStep`, `ReasoningPath`;
* `core/mcts_node.py`       — `MCTSNode` (here: node data inside an inductive tree);
* `core/heuristics.py`      — `SearchHeuristics`;
* `core/mcts.py`            — `ucb_score`, `MCTSRunner` (select / expand / backprop /
  collect loop);
* `actions/registry.py`     — `build_action`;
* `agents/mcts/execution_agent.py` — `TQAExecutionAgent.execute`;
* `actions/termination/finish.py`  — the `Finish` action (used for concrete runs);
* `main.py`                 — the empty-candidate guard of `run_pipeline`.

Modelling conventions:

* Python floats are modelled as exact rationals (`ℚ`) wherever the program only
  adds, subtracts, divides and compares them (visit statistics `Q`, rewards,
  `total_score`, the pruning floor).  The UCB score, which genuinely involves
  `sqrt`, `log` and `float("inf")`, is modelled over the extended reals
  (`EReal`), with the exploration constant `c : ℝ`.
* Python dicts are association lists that preserve insertion order; assignment
  to an existing key updates the stored value in place (keeping the position of
  the first insertion), assignment to a new key appends.  This mirrors CPython
  dict semantics, on which `TableContext.header_index` and `MCTSNode.children`
  rely.
* Python's in-place mutation of forked contexts becomes functional update.
  `ReasoningContext.fork` copies every collection one level deep, so after a
  fork the mutations performed by the runner on the fork never reach the
  original; the pure model reflects exactly that.  The one place where
  in-place mutation is observable — `_maybe_collect_ctx` mutating the path
  object that is also stored in the tree node — is modelled explicitly by
  writing the updated context back into the tree (`updateCtxAt`).
* The reference (aliasing) semantics of `fork` itself is modelled separately
  in namespace `RefModel` with an explicit store, in order to state which
  parts of a forked state are shared and which are independent.
-/

/-! ## Python-like values

Arbitrary Python values (`Any`) as they appear in `ctx.memory`, `ctx.answer`,
action specs and observations. -/

inductive PyVal where
  | none : PyVal
  | bool (b : Bool) : PyVal
  | num (q : ℚ) : PyVal
  | str (s : String) : PyVal
  | list (xs : List PyVal) : PyVal
  | dict (kvs : List (String × PyVal)) : PyVal

/-- Ordered string-keyed dictionary, the pervasive Python `Dict[str, Any]`. -/
abbrev PyDict := List (String × PyVal)

/-- `d.get(k)` on an association list: first binding wins (keys are unique in
all dictionaries the program builds, because insertion updates in place). -/
def dictGet (d : List (String × α)) (k : String) : Option α :=
  match d with
  | [] => Option.none
  | (k', v) :: rest => if k' = k then some v else dictGet rest k

/-- `d[k] = v` on an ordered dictionary: update the value in place when the key
is present (keeping the position of its first insertion), append otherwise.
This is CPython dict assignment. -/
def dictSet (d : List (String × α)) (k : String) (v : α) : List (String × α) :=
  match d with
  | [] => [(k, v)]
  | (k', v') :: rest => if k' = k then (k, v) :: rest else (k', v') :: dictSet rest k v

/-- `{**a, **b}`: the keys of `a` in their order (values overridden by `b`
where present), then the keys of `b` that are new, in their order. -/
def dictMerge (a b : PyDict) : PyDict :=
  (a.map fun kv => match dictGet b kv.1 with
    | some v => (kv.1, v)
    | Option.none => kv) ++
  b.filter fun kv => a.all fun av => av.1 ≠ kv.1

/-! ## Trace model (`core/trace.py`) -/

/-- One step on a reasoning path: action spec + observation + optional error
(`core/trace.py`, `TraceStep`).  The runner always creates steps with
`error = None` and `score = None`. -/
structure TraceStep where
  action_spec : PyVal
  observation : PyDict
  error : Option String := Option.none
  score : Option ℚ := Option.none

/-- A candidate reasoning path (`core/trace.py`, `ReasoningPath`). -/
structure ReasoningPath where
  steps : List TraceStep := []
  final_answer : PyVal := PyVal.none
  terminal : Bool := false
  total_score : ℚ := 0
  meta : PyDict := []

/-! ## Table model (`core/table_context.py`) -/

/-- Python `\s` on the ASCII range (`str.strip()` / `re.sub(r"\s+", ...)`
whitespace). -/
def isPySpace (c : Char) : Bool :=
  c = ' ' || c = '\t' || c = '\n' || c = '\r' || c = '\x0b' || c = '\x0c'

/-- Collapse every maximal run of whitespace to a single space
(`re.sub(r"\s+", " ", s)`); `inRun` records whether the previous character was
part of a whitespace run already replaced. -/
def collapseWSAux (inRun : Bool) : List Char → List Char
  | [] => []
  | c :: rest =>
    if isPySpace c then
      if inRun then collapseWSAux true rest
      else ' ' :: collapseWSAux true rest
    else c :: collapseWSAux false rest

def collapseWS (l : List Char) : List Char := collapseWSAux false l

/-- `_norm` from `core/table_context.py`:
`re.sub(r"\s+", " ", s.strip()).lower()`. -/
def normHeader (s : String) : String :=
  let stripped := (s.data.dropWhile isPySpace).reverse.dropWhile isPySpace |>.reverse
  String.mk ((collapseWS stripped).map Char.toLower)

/-- The dict comprehension `{_norm(h): i for i, h in enumerate(self.headers)}`
building `header_index`, starting enumeration at `i`. -/
def buildIndexAux (i : ℕ) (headers : List String) (d : List (String × ℕ)) :
    List (String × ℕ) :=
  match headers with
  | [] => d
  | h :: rest => buildIndexAux (i + 1) rest (dictSet d (normHeader h) i)

/-- `header_index` as computed in `TableContext.__post_init__`. -/
def buildIndex (headers : List String) : List (String × ℕ) :=
  buildIndexAux 0 headers []

/-- `TableContext`: headers, rows and the derived `header_index`
(`core/table_context.py`).  The index field is kept derived, as in
`__post_init__`. -/
structure TableContext where
  headers : List String
  rows : List (List String)

def TableContext.header_index (t : TableContext) : List (String × ℕ) :=
  buildIndex t.headers

/-- Does `pat` occur at the very start of `l`? -/
def matchesAt (pat l : List Char) : Bool :=
  match pat, l with
  | [], _ => true
  | _ :: _, [] => false
  | a :: as, b :: bs => a = b && matchesAt as bs

/-- Does `pat` occur contiguously anywhere in `l`? -/
def containsSeq (pat : List Char) : List Char → Bool
  | [] => pat.isEmpty
  | c :: rest => matchesAt pat (c :: rest) || containsSeq pat rest

/-- `needle in hay` for Python strings: contiguous-substring containment. -/
def strContains (hay needle : String) : Bool :=
  containsSeq needle.data hay.data

/-- `TableContext.resolve_col` (`core/table_context.py` lines 30-40): exact
normalised lookup first; otherwise soft matching by substring containment in
either direction, sorted by candidate length with Python's stable sort and
taking the first; `KeyError` when no candidate matches. -/
def sortInsertByLen (x : String × ℕ) : List (String × ℕ) → List (String × ℕ)
  | [] => [x]
  | y :: ys =>
    if y.1.length < x.1.length then y :: sortInsertByLen x ys
    else x :: y :: ys

/-- `cands.sort(key=lambda x: len(x[0]))`: a stable sort by key length
(insertion from the right keeps the original order of equal-length keys). -/
def sortByLen (l : List (String × ℕ)) : List (String × ℕ) :=
  l.foldr sortInsertByLen []

inductive ResolveResult where
  | ok (i : ℕ) : ResolveResult
  | keyError (msg : String) : ResolveResult
deriving DecidableEq

def TableContext.resolve_col (t : TableContext) (name : String) : ResolveResult :=
  let key := normHeader name
  match dictGet t.header_index key with
  | some i => ResolveResult.ok i
  | Option.none =>
    let cands := t.header_index.filter fun kv =>
      strContains kv.1 key || strContains key kv.1
    match sortByLen cands with
    | [] => ResolveResult.keyError ("Column not found: " ++ name)
    | best :: _ => ResolveResult.ok best.2

/-! ## Reasoning state (`core/reasoning_context.py`) -/

/-- The forkable reasoning state.  `view` is optional in the source with
`__post_init__` defaulting it to `table`; states built by the program always
have a view, so it is kept as a plain field here. -/
structure ReasoningContext where
  table : TableContext
  view : TableContext
  question : String := ""
  memory : PyDict := []
  path : ReasoningPath := {}
  done : Bool := false
  answer : PyVal := PyVal.none
  depth : ℕ := 0

/-- `ReasoningContext.fork` (`core/reasoning_context.py` lines 26-44):
table and view are shared by reference, `memory` and the path collections are
copied one level deep, scalars are copied by value.  In the pure value
semantics used for the runner a one-level copy is the identity on the value;
the aliasing consequences of the copy are modelled separately in `RefModel`
below. -/
def ReasoningContext.fork (c : ReasoningContext) : ReasoningContext :=
  { table := c.table
    view := c.view
    question := c.question
    memory := c.memory            -- dict(self.memory)
    path :=
      { steps := c.path.steps     -- list(self.path.steps)
        final_answer := c.path.final_answer
        terminal := c.path.terminal
        total_score := c.path.total_score
        meta := c.path.meta }     -- dict(self.path.meta)
    done := c.done
    answer := c.answer
    depth := c.depth }

theorem ReasoningContext.fork_eq (c : ReasoningContext) : c.fork = c := rfl

/-! ## Search tree (`core/mcts_node.py`)

`MCTSNode` carries a context, visit statistics and an insertion-ordered
`Dict[int, MCTSNode]` of children; the parent back-reference of the source
becomes implicit in the inductive tree (a node's ancestors are the prefixes of
its path from the root). -/

structure NodeData where
  ctx : ReasoningContext
  N : ℕ := 0
  Q : ℚ := 0
  prior : ℚ := 1
  last_action_index : Option ℕ := Option.none

inductive MTree where
  | mk (data : NodeData) (children : List (ℕ × MTree)) : MTree

def MTree.data : MTree → NodeData
  | .mk d _ => d

def MTree.children : MTree → List (ℕ × MTree)
  | .mk _ ch => ch

/-- `node.children[k]` (read). -/
def childGet (ch : List (ℕ × MTree)) (k : ℕ) : Option MTree :=
  match ch with
  | [] => Option.none
  | (k', t) :: rest => if k' = k then some t else childGet rest k

/-- `node.children[k] = c` (write): CPython dict assignment, updating in place
or appending. -/
def childSet (ch : List (ℕ × MTree)) (k : ℕ) (c : MTree) : List (ℕ × MTree) :=
  match ch with
  | [] => [(k, c)]
  | (k', t) :: rest => if k' = k then (k, c) :: rest else (k', t) :: childSet rest k c

/-- The node reached from `t` by following the child keys in `p`. -/
def getNodeAt : List ℕ → MTree → Option MTree
  | [], t => some t
  | k :: p, .mk _ ch => (childGet ch k).bind (getNodeAt p)

/-- Visit count and mean value of the node at path `p`. -/
def statsAt (t : MTree) (p : List ℕ) : Option (ℕ × ℚ) :=
  (getNodeAt p t).map fun n => (n.data.N, n.data.Q)

/-- Replace the context stored at path `p` (models Python's in-place mutation
of `node.ctx.path` by `_maybe_collect_ctx`, which is visible through the tree
because the collected path object is the node's own). -/
def updateCtxAt : List ℕ → ReasoningContext → MTree → MTree
  | [], c, .mk d ch => .mk { d with ctx := c } ch
  | k :: p, c, .mk d ch =>
    .mk d (ch.map fun kv => if kv.1 = k then (kv.1, updateCtxAt p c kv.2) else kv)

/-- `node.children[a_idx] = child` at the node reached by `p`
(`core/mcts.py` line 89). -/
def attachChildAt : List ℕ → ℕ → MTree → MTree → MTree
  | [], k, c, .mk d ch => .mk d (childSet ch k c)
  | k0 :: p, k, c, .mk d ch =>
    .mk d (ch.map fun kv => if kv.1 = k0 then (kv.1, attachChildAt p k c kv.2) else kv)

/-! ## UCB score and selection (`core/mcts.py` lines 13-16, 104-116) -/

/-- `ucb_score(parent_N, child_Q, child_N, c)`: `float("inf")` for an
unvisited child, otherwise `child_Q + c * sqrt(log(max(1, parent_N)) / child_N)`.
Modelled over the extended reals, with `float("inf") = ⊤`. -/
noncomputable def ucb_score (parent_N : ℕ) (child_Q : ℚ) (child_N : ℕ) (c : ℝ) : EReal :=
  if child_N = 0 then ⊤
  else ((child_Q + c * Real.sqrt (Real.log (max 1 (parent_N : ℕ) : ℕ) / child_N) : ℝ) : EReal)

/-- The best-UCB loop of `_select` (lines 108-114): iterate over
`node.children.items()` tracking `best_k`/`best_s`, with `best_s` starting at
`-float("inf") = ⊥` and a strict comparison `s > best_s`. -/
noncomputable def bestChildAux (parentN1 : ℕ) (c : ℝ) :
    List (ℕ × MTree) → Option ℕ → EReal → Option ℕ
  | [], bk, _ => bk
  | (k, ch) :: rest, bk, bs =>
    let s := ucb_score parentN1 ch.data.Q ch.data.N c
    if bs < s then bestChildAux parentN1 c rest (some k) s
    else bestChildAux parentN1 c rest bk bs

/-- `_select`: descend from the root while the current node has children and
its state is not done, moving to the child with the best UCB score (the call
site passes `node.N + 1` as the `parent_N` argument, line 111).  Returns the
path of the selected node together with the node.  `fuel` bounds the descent;
the runner always supplies more fuel than the tree is deep, so the bound is
never the reason the loop stops. -/
noncomputable def selectNode (c : ℝ) : ℕ → List ℕ → MTree → List ℕ × MTree
  | 0, acc, t => (acc, t)
  | fuel + 1, acc, .mk d ch =>
    if ch.isEmpty || d.ctx.done then (acc, .mk d ch)
    else
      match bestChildAux (d.N + 1) c ch Option.none ⊥ with
      | Option.none => (acc, .mk d ch)          -- unreachable: ch nonempty
      | some k =>
        match childGet ch k with
        | Option.none => (acc, .mk d ch)        -- unreachable: k comes from ch
        | some t' => selectNode c fuel (acc ++ [k]) t'

/-! ## Backpropagation (`core/mcts.py` lines 126-132) -/

/-- One visit-statistics update: `N += 1; Q += (reward - Q) / N`. -/
def bumpStats (d : NodeData) (reward : ℚ) : NodeData :=
  { d with N := d.N + 1, Q := d.Q + (reward - d.Q) / (d.N + 1) }

/-- `_backprop(node, reward)`: walk from the node at path `p` up through its
parents to the root, updating every node on that chain.  The source walks
bottom-up via parent pointers; updating every prefix of `p` top-down produces
the same tree. -/
def backpropAt : List ℕ → ℚ → MTree → MTree
  | [], r, .mk d ch => .mk (bumpStats d r) ch
  | k :: p, r, .mk d ch =>
    .mk (bumpStats d r)
      (ch.map fun kv => if kv.1 = k then (kv.1, backpropAt p r kv.2) else kv)

/-- Backpropagating a sequence of rewards, one `_backprop` call per reward. -/
def backpropList (rs : List ℚ) (p : List ℕ) (t : MTree) : MTree :=
  rs.foldl (fun t r => backpropAt p r t) t

/-! ## Heuristics (`core/heuristics.py`) -/

structure SearchHeuristics where
  max_depth : ℕ := 12
  min_score_to_expand : ℚ := -1000000000

def SearchHeuristics.should_stop (h : SearchHeuristics) (depth : ℕ) : Bool :=
  decide (h.max_depth ≤ depth)

def SearchHeuristics.should_expand (h : SearchHeuristics) (score : ℚ) : Bool :=
  decide (h.min_score_to_expand ≤ score)

/-! ## The runner (`core/mcts.py` lines 18-162) -/

/-- `EvalResult` (`core/schemas.py`).  `extra = None` and `extra = {}` are both
falsy at the single use site (`if er.extra:`), so `extra` is a plain dict with
`[]` standing for both. -/
structure EvalResult where
  score : ℚ
  critique : String := ""
  extra : PyDict := []

/-- The three injected collaborators plus the runner's own configuration
(`MCTSRunner` dataclass fields; `seed` is omitted because `run` only feeds it
to `random.seed` and the runner never draws a random number). -/
structure MCTSParams where
  planner : ReasoningContext → List PyVal
  executor : ReasoningContext → PyVal → ReasoningContext × PyDict
  evaluator : ReasoningContext → EvalResult
  heuristics : SearchHeuristics := {}
  exploration_c : ℝ

/-- Mutable state of one `run` invocation: the tree, the collected candidate
paths, and the number of loop iterations executed so far. -/
structure RunState where
  root : MTree
  candidates : List ReasoningPath
  iters : ℕ

/-- `_pick_untried_or_best` (`core/mcts.py` lines 118-124): the first proposal
whose list position is not already a child key; if all positions are tried,
position 0 with the (possibly new) top-ranked spec. -/
def pickUntriedAux (keys : List ℕ) : ℕ → List PyVal → Option (ℕ × PyVal)
  | _, [] => Option.none
  | i, s :: rest => if i ∈ keys then pickUntriedAux keys (i + 1) rest else some (i, s)

def pickUntriedOrBest (keys : List ℕ) (specs : List PyVal) : ℕ × PyVal :=
  match pickUntriedAux keys 0 specs with
  | some r => r
  | Option.none => (0, specs.headD PyVal.none)

/-- `_maybe_collect_ctx` (`core/mcts.py` lines 143-162).  Returns the possibly
mutated context (the collected path object *is* `ctx.path`; Python mutates it
in place) together with the new candidate list. -/
def collectCtx (ctx : ReasoningContext) (er : Option EvalResult)
    (candidates : List ReasoningPath) (max_candidates : ℕ) :
    ReasoningContext × List ReasoningPath :=
  if max_candidates ≤ candidates.length then (ctx, candidates)
  else if ctx.done || ctx.path.terminal then
    let p := ctx.path
    let p :=
      match er with
      | some e =>
        { p with total_score := e.score
                 meta := if e.extra.isEmpty then p.meta else dictMerge p.meta e.extra }
      | Option.none =>
        -- `p.total_score = float(p.total_score or 0.0)`: identity on floats,
        -- written out for faithfulness (`0.0 or 0.0` is `0.0`).
        { p with total_score := if p.total_score = 0 then 0 else p.total_score }
    let p := { p with final_answer := ctx.answer }
    ({ ctx with path := p }, candidates ++ [p])
  else (ctx, candidates)

/-- The dead-end state of `core/mcts.py` lines 54-57: fork the selected
node's state, mark it done, mark its path terminal with the `dead_end`
metadata flag. -/
def deadEndCtx (c : ReasoningContext) : ReasoningContext :=
  let dead0 := c.fork
  { dead0 with
    done := true
    path := { dead0.path with
              terminal := true
              meta := dictSet dead0.path.meta "dead_end" (PyVal.bool true) } }

/-- Lines 68-85 of `core/mcts.py`: execute the chosen spec on a fork of the
parent's state, append the trace step, set the depth, evaluate, prune when the
reward is below the heuristic floor, and mark the path terminal when done.
Returns the finished child context together with the evaluation. -/
def expandedChildCtx (P : MCTSParams) (parentCtx : ReasoningContext)
    (aSpec : PyVal) : ReasoningContext × EvalResult :=
  let ex := P.executor parentCtx.fork aSpec
  let child_ctx :=
    { ex.1 with
      path := { ex.1.path with
                steps := ex.1.path.steps ++
                  [{ action_spec := aSpec, observation := ex.2 }] }
      depth := parentCtx.depth + 1 }
  let er := P.evaluator child_ctx
  let child_ctx :=
    if P.heuristics.should_expand er.score then child_ctx
    else { child_ctx with
           done := true
           path := { child_ctx.path with
                     meta := dictSet child_ctx.path.meta "pruned" (PyVal.bool true) } }
  let child_ctx :=
    if child_ctx.done then
      { child_ctx with
        path := { child_ctx.path with
                  terminal := true
                  final_answer := child_ctx.answer } }
    else child_ctx
  (child_ctx, er)

/-- One iteration of the `for _ in range(num_iters)` body of `MCTSRunner.run`
(`core/mcts.py` lines 42-98).  The returned `Bool` is `true` when the body
executed the `break` at lines 97-98. -/
noncomputable def runIter (P : MCTSParams) (max_candidates : ℕ) (fuel : ℕ)
    (st : RunState) : RunState × Bool :=
  let sel := selectNode P.exploration_c fuel [] st.root
  let sp := sel.1
  let d := sel.2.data
  if d.ctx.done || P.heuristics.should_stop d.ctx.depth then
    -- already terminal -> collect, then `continue`
    let col := collectCtx d.ctx Option.none st.candidates max_candidates
    ({ root := updateCtxAt sp col.1 st.root, candidates := col.2,
       iters := st.iters + 1 }, false)
  else
    let action_specs := P.planner d.ctx
    if action_specs.isEmpty then
      -- dead end: fork, mark done/terminal with the dead_end flag, evaluate,
      -- backprop into the *current* node, try to collect, `continue`
      let dead := deadEndCtx d.ctx
      let er := P.evaluator dead
      let root1 := backpropAt sp er.score st.root
      let col := collectCtx dead (some er) st.candidates max_candidates
      ({ root := root1, candidates := col.2, iters := st.iters + 1 }, false)
    else
      let pick := pickUntriedOrBest (sel.2.children.map Prod.fst) action_specs
      let ce := expandedChildCtx P d.ctx pick.2
      let child : MTree :=
        .mk { ctx := ce.1, N := 0, Q := 0, prior := 1,
              last_action_index := some pick.1 } []
      let root1 := attachChildAt sp pick.1 child st.root
      let root2 := backpropAt (sp ++ [pick.1]) ce.2.score root1
      let col := collectCtx ce.1 (some ce.2) st.candidates max_candidates
      let root3 := updateCtxAt (sp ++ [pick.1]) col.1 root2
      ({ root := root3, candidates := col.2, iters := st.iters + 1 },
       decide (max_candidates ≤ col.2.length))

/-- The iteration loop: `n` remaining iterations, stopping early only when an
iteration reports the `break`. -/
noncomputable def runLoop (P : MCTSParams) (max_candidates fuel : ℕ) :
    ℕ → RunState → RunState
  | 0, st => st
  | n + 1, st =>
    let step := runIter P max_candidates fuel st
    bif step.2 then step.1 else runLoop P max_candidates fuel n step.1

/-- `MCTSRunner.run` up to (but not including) the final sort-and-truncate:
the full run state after the loop.  The selection fuel `num_iters + 1` always
exceeds the tree height, which grows by at most one level per iteration from a
one-node tree. -/
noncomputable def runFull (P : MCTSParams) (root_ctx : ReasoningContext)
    (num_iters max_candidates : ℕ) : RunState :=
  runLoop P max_candidates (num_iters + 1) num_iters
    { root := .mk { ctx := root_ctx } [], candidates := [], iters := 0 }

/-- `candidates.sort(key=lambda p: p.total_score, reverse=True)`: stable
descending sort by `total_score`. -/
def sortInsertByScore (x : ReasoningPath) : List ReasoningPath → List ReasoningPath
  | [] => [x]
  | y :: ys =>
    if x.total_score < y.total_score then y :: sortInsertByScore x ys
    else x :: y :: ys

def sortByScoreDesc (l : List ReasoningPath) : List ReasoningPath :=
  l.foldr sortInsertByScore []

/-- `MCTSRunner.run` (`core/mcts.py` lines 31-102): the returned value,
`candidates` sorted by score descending and truncated to `max_candidates`. -/
noncomputable def runMCTS (P : MCTSParams) (root_ctx : ReasoningContext)
    (num_iters max_candidates : ℕ) : List ReasoningPath :=
  (sortByScoreDesc (runFull P root_ctx num_iters max_candidates).candidates).take
    max_candidates

/-- The empty-candidate guard of the pipeline (`main.py` lines 216-217):
`if not candidates: raise RuntimeError(...)`. -/
def pipelineGuard (candidates : List ReasoningPath) :
    Except String (List ReasoningPath) :=
  if candidates.isEmpty then
    Except.error "No candidate reasoning paths produced by MCTS."
  else Except.ok candidates

/-! ## Action registry and execution boundary
(`actions/registry.py`, `agents/mcts/execution_agent.py`)

A Python exception value: the class name (`e.__class__.__name__`) and the
message (`str(e)`). -/

structure PyExc where
  etype : String
  msg : String

/-- A constructed action object: in Python, the object carries its own
`apply` method, which may read/write memory, replace the view, set
done/answer — or raise. -/
structure ActionObj where
  apply : ReasoningContext → Except PyExc (ReasoningContext × PyDict)

/-- An entry of `ACTION_REGISTRY`: `construct` models `cls(**kwargs)` — with
the `TypeError` of an unexpected or missing argument already wrapped into an
`ActionError` as `build_action` does — immediately followed by
`act.validate()`. -/
structure ActionClass where
  construct : PyDict → Except PyExc ActionObj

def regGet (reg : List (String × ActionClass)) (t : String) : Option ActionClass :=
  match reg with
  | [] => Option.none
  | (t', c) :: rest => if t' = t then some c else regGet rest t

/-- `build_action(spec)` (`actions/registry.py` lines 18-38).  A non-dict
spec, a missing/falsy/non-string `type` field and an unknown tag each raise an
`ActionError`; otherwise the constructor runs on `dict(spec)` minus `type`. -/
def build_action (reg : List (String × ActionClass)) (spec : PyVal) :
    Except PyExc ActionObj :=
  match spec with
  | PyVal.dict kvs =>
    match dictGet kvs "type" with
    | some (PyVal.str t) =>
      if t = "" then
        Except.error ⟨"ActionError", "Action spec missing string field 'type'."⟩
      else
        match regGet reg t with
        | Option.none => Except.error ⟨"ActionError", "Unknown action type: " ++ t⟩
        | some cls => cls.construct (kvs.filter fun kv => kv.1 ≠ "type")
    | some _ =>
      Except.error ⟨"ActionError", "Action spec missing string field 'type'."⟩
    | Option.none =>
      Except.error ⟨"ActionError", "Action spec missing string field 'type'."⟩
  | _ => Except.error ⟨"ActionError", "Action spec must be dict"⟩

/-- `build_action(spec)` followed by `action.apply(ctx)`: everything inside
the `try` of `TQAExecutionAgent.execute`. -/
def buildAndRun (reg : List (String × ActionClass)) (ctx : ReasoningContext)
    (spec : PyVal) : Except PyExc (ReasoningContext × PyDict) :=
  (build_action reg spec).bind fun a => a.apply ctx

/-- The observation produced by the `except` branch of
`TQAExecutionAgent.execute`. -/
def errorObs (e : PyExc) (penalize : ℚ) : PyDict :=
  [("ok", PyVal.bool false), ("error_type", PyVal.str e.etype),
   ("error", PyVal.str e.msg), ("penalty", PyVal.num penalize)]

/-- `TQAExecutionAgent.execute` (`agents/mcts/execution_agent.py` lines
21-32): never raises; on success returns the action's result (`obs or {}` is
the identity on the dict observations actions return), on any exception the
*original* context plus the error observation.  `penalize` is the
`penalize_on_error` field, default `-1e6`. -/
def tqaExecute (reg : List (String × ActionClass)) (penalize : ℚ)
    (ctx : ReasoningContext) (spec : PyVal) : ReasoningContext × PyDict :=
  match buildAndRun reg ctx spec with
  | Except.ok r => r
  | Except.error e => (ctx, errorObs e penalize)

/-! ### The `Finish` action (`actions/termination/finish.py`)

The one concrete action needed for the end-to-end run: mark terminal and set
the final answer from memory or from a literal. -/

/-- The successful tail of `Finish.apply` once `ctx.answer` has been set:
`done = True`, `path.terminal = True`, `path.final_answer = ctx.answer`, and
the observation dict. -/
def finishDone (answer_from : PyVal) (literal_used : Bool)
    (ctx : ReasoningContext) : ReasoningContext × PyDict :=
  let c := { ctx with
             done := true
             path := { ctx.path with terminal := true, final_answer := ctx.answer } }
  (c, [("answer", c.answer), ("answer_from", answer_from),
       ("literal_used", PyVal.bool literal_used)])

/-- A constructed `Finish` object. -/
def finishObj (answer_from literal : PyVal) : ActionObj where
  apply ctx :=
    match answer_from with
    | PyVal.none =>
      Except.ok (finishDone PyVal.none true { ctx with answer := literal })
    | PyVal.str s =>
      match dictGet ctx.memory s with
      | some v => Except.ok (finishDone (PyVal.str s) false { ctx with answer := v })
      | Option.none =>
        Except.error ⟨"ActionError", "answer_from var not found in ctx.memory: " ++ s⟩
    | _ =>
      -- a non-string, non-None key is never an element of the string-keyed
      -- memory dict, so `not in ctx.memory` fires just as for a missing name
      Except.error ⟨"ActionError", "answer_from var not found in ctx.memory"⟩

/-- The registry entry for `Finish`: the dataclass constructor accepts
`answer_from`, `literal` and the inherited `approx_cost`, defaulting the
missing ones; any other keyword raises `TypeError`, wrapped by `build_action`
into an `ActionError`.  The base `validate()` is a no-op. -/
def finishClass : ActionClass where
  construct kvs :=
    if kvs.all fun kv =>
        kv.1 = "answer_from" || kv.1 = "literal" || kv.1 = "approx_cost" then
      Except.ok (finishObj ((dictGet kvs "answer_from").getD PyVal.none)
        ((dictGet kvs "literal").getD PyVal.none))
    else
      Except.error ⟨"ActionError", "Failed to construct action Finish: unexpected keyword argument"⟩

/-- The registry as populated for the end-to-end scenario. -/
def finishRegistry : List (String × ActionClass) := [("Finish", finishClass)]

/-! ## Reference semantics of `fork` (`core/reasoning_context.py` lines 26-44)

The pure value model above cannot express *aliasing*, which is what the fork
contract is about.  Here the mutable collections live in an explicit store:
each `memory` dict and each `path.steps` list is a cell addressed by an index,
and a context holds references.  `fork` allocates fresh cells holding copies
of the source's collections and keeps the table/view references shared. -/

namespace RefModel

/-- The store of mutable collections: memory dicts and step lists, addressed
by allocation index.  (Tables are never mutated, so only their references
matter; they need no cells.) -/
structure Store where
  mems : List PyDict
  stepLists : List (List TraceStep)

/-- A reasoning state as a bundle of references plus value-copied scalars. -/
structure CtxHandle where
  tableRef : ℕ
  viewRef : ℕ
  memRef : ℕ
  stepsRef : ℕ
  question : String
  done : Bool
  answer : PyVal
  depth : ℕ

def memAt (σ : Store) (r : ℕ) : Option PyDict := σ.mems[r]?

def stepsAt (σ : Store) (r : ℕ) : Option (List TraceStep) := σ.stepLists[r]?

/-- `fork()`: `table`/`view` shared by reference, `memory` and `path.steps`
copied into fresh cells (`dict(self.memory)`, `list(self.path.steps)`), all
scalar fields copied by value. -/
def fork (σ : Store) (h : CtxHandle) : Store × CtxHandle :=
  ({ mems := σ.mems ++ [(memAt σ h.memRef).getD []]
     stepLists := σ.stepLists ++ [(stepsAt σ h.stepsRef).getD []] },
   { h with memRef := σ.mems.length, stepsRef := σ.stepLists.length })

/-- `state.memory[k] = v`: add or rebind a top-level key of the memory dict in
cell `r`. -/
def memWrite (σ : Store) (r : ℕ) (k : String) (v : PyVal) : Store :=
  { σ with mems := σ.mems.set r (dictSet ((memAt σ r).getD []) k v) }

/-- `del state.memory[k]`: remove a top-level key of the memory dict in cell
`r`. -/
def memErase (σ : Store) (r : ℕ) (k : String) : Store :=
  { σ with mems := σ.mems.set r (((memAt σ r).getD []).filter fun kv => kv.1 ≠ k) }

/-- `state.path.steps.append(s)` on the step list in cell `r`. -/
def stepAppend (σ : Store) (r : ℕ) (s : TraceStep) : Store :=
  { σ with stepLists := σ.stepLists.set r (((stepsAt σ r).getD []) ++ [s]) }

end RefModel

namespace RefModel

/-- The full fork contract at a store/state pair (see theorem `c7_fork_contract`):
table and view aliased, scalars copied by value, memory dict and step list in
fresh cells that hold equal copies, and top-level mutations (add/rebind or
remove a memory key, append a step) on either side invisible to the other. -/
def ForkContract (σ : Store) (h : CtxHandle) : Prop :=
  (fork σ h).2.tableRef = h.tableRef ∧
  (fork σ h).2.viewRef = h.viewRef ∧
  (fork σ h).2.question = h.question ∧
  (fork σ h).2.done = h.done ∧
  (fork σ h).2.answer = h.answer ∧
  (fork σ h).2.depth = h.depth ∧
  (fork σ h).2.memRef ≠ h.memRef ∧
  (fork σ h).2.stepsRef ≠ h.stepsRef ∧
  memAt (fork σ h).1 (fork σ h).2.memRef = memAt σ h.memRef ∧
  stepsAt (fork σ h).1 (fork σ h).2.stepsRef = stepsAt σ h.stepsRef ∧
  (∀ k v, memAt (memWrite (fork σ h).1 (fork σ h).2.memRef k v) h.memRef =
    memAt (fork σ h).1 h.memRef) ∧
  (∀ k v, memAt (memWrite (fork σ h).1 h.memRef k v) (fork σ h).2.memRef =
    memAt (fork σ h).1 (fork σ h).2.memRef) ∧
  (∀ k, memAt (memErase (fork σ h).1 (fork σ h).2.memRef k) h.memRef =
    memAt (fork σ h).1 h.memRef) ∧
  (∀ k, memAt (memErase (fork σ h).1 h.memRef k) (fork σ h).2.memRef =
    memAt (fork σ h).1 (fork σ h).2.memRef) ∧
  (∀ s, stepsAt (stepAppend (fork σ h).1 (fork σ h).2.stepsRef s) h.stepsRef =
    stepsAt (fork σ h).1 h.stepsRef) ∧
  (∀ s, stepsAt (stepAppend (fork σ h).1 h.stepsRef s) (fork σ h).2.stepsRef =
    stepsAt (fork σ h).1 (fork σ h).2.stepsRef)

end RefModel

/-- **C7.**  For every state `S` (a store cell layout `σ` with a handle `h`
whose memory and step cells are allocated), `fork(S)` returns a state whose
table and view alias `S`'s by reference, whose top-level memory map and step
list are fresh copies — so a subsequent mutation of either collection
(adding/removing/rebinding a top-level memory key, appending a step) does not
affect the other — and whose scalar fields (question, done, answer, depth)
equal `S`'s. -/
theorem c7_fork_contract (σ : RefModel.Store) (h : RefModel.CtxHandle)
    (hm : h.memRef < σ.mems.length) (hs : h.stepsRef < σ.stepLists.length) :
    RefModel.ForkContract σ h := by
  have hmne : σ.mems.length ≠ h.memRef := (Nat.ne_of_lt hm).symm
  have hsne : σ.stepLists.length ≠ h.stepsRef := (Nat.ne_of_lt hs).symm
  refine ⟨rfl, rfl, rfl, rfl, rfl, rfl, hmne, hsne, ?_, ?_, ?_, ?_, ?_, ?_, ?_, ?_⟩
  · show (σ.mems ++ [(RefModel.memAt σ h.memRef).getD []])[σ.mems.length]? = _
    rw [List.getElem?_concat_length, RefModel.memAt, List.getElem?_eq_getElem hm]
    rfl
  · show (σ.stepLists ++ [(RefModel.stepsAt σ h.stepsRef).getD []])[σ.stepLists.length]? = _
    rw [List.getElem?_concat_length, RefModel.stepsAt, List.getElem?_eq_getElem hs]
    rfl
  · intro k v
    exact List.getElem?_set_ne hmne
  · intro k v
    exact (List.getElem?_set_ne (Nat.ne_of_lt hm)).trans rfl
  · intro k
    exact List.getElem?_set_ne hmne
  · intro k
    exact (List.getElem?_set_ne (Nat.ne_of_lt hm)).trans rfl
  · intro s
    exact List.getElem?_set_ne hsne
  · intro s
    exact (List.getElem?_set_ne (Nat.ne_of_lt hs)).trans rfl

/-- A store with one allocated memory cell and one allocated step cell, and a
state referencing them. -/
def refStore0 : RefModel.Store :=
  { mems := [[("x", PyVal.num 1)]], stepLists := [[]] }

def refCtx0 : RefModel.CtxHandle :=
  { tableRef := 0, viewRef := 0, memRef := 0, stepsRef := 0,
    question := "q", done := false, answer := PyVal.none, depth := 0 }

/-- Witness for `c7_fork_contract` at a concrete store and state. -/
theorem c7_fork_contract_witness :
    refCtx0.memRef < refStore0.mems.length ∧
    refCtx0.stepsRef < refStore0.stepLists.length ∧
    RefModel.ForkContract refStore0 refCtx0 :=
  ⟨by decide, by decide, c7_fork_contract refStore0 refCtx0 (by decide) (by decide)⟩

/-! ## C2: backpropagation updates the chain of ancestors as a running mean -/

/-- `q` is on the backpropagation chain of the node at path `p`, i.e. the node
at `q` is that node or one of its ancestors. -/
def onChain : List ℕ → List ℕ → Bool
  | [], _ => true
  | _ :: _, [] => false
  | a :: as, b :: bs => a = b && onChain as bs

/-- The `N += 1; Q += (reward - Q) / N` update on a bare statistics pair. -/
def bumpPair (s : ℕ × ℚ) (r : ℚ) : ℕ × ℚ :=
  (s.1 + 1, s.2 + (r - s.2) / (s.1 + 1))

/-- Reading a child key through the keep-keys map used by `backpropAt`,
`updateCtxAt` and `attachChildAt` on the non-final path steps. -/
theorem childGet_map_if (ch : List (ℕ × MTree)) (k j : ℕ) (g : MTree → MTree) :
    childGet (ch.map fun kv => if kv.1 = k then (kv.1, g kv.2) else kv) j =
    if j = k then (childGet ch k).map g else childGet ch j := by
  induction ch with
  | nil => simp [childGet]
  | cons hd tl ih =>
    obtain ⟨k', t⟩ := hd
    rw [List.map_cons]
    by_cases hk : k' = k
    · subst hk
      rw [show (if ((k', t) : ℕ × MTree).1 = k' then (((k', t) : ℕ × MTree).1,
        g ((k', t) : ℕ × MTree).2) else ((k', t) : ℕ × MTree)) = (k', g t) from
        if_pos rfl]
      by_cases hj : j = k'
      · subst hj
        simp [childGet, ih]
      · have hj' : ¬ k' = j := fun h => hj h.symm
        simp [childGet, hj, hj', ih]
    · rw [show (if ((k', t) : ℕ × MTree).1 = k then (((k', t) : ℕ × MTree).1,
        g ((k', t) : ℕ × MTree).2) else ((k', t) : ℕ × MTree)) = (k', t) from
        if_neg hk]
      by_cases hj : j = k
      · subst hj
        have hk' : ¬ k' = j := hk
        simp [childGet, hk', ih]
      · simp only [childGet, ih, if_neg hj]

theorem statsAt_backpropAt_on (q : List ℕ) :
    ∀ (p : List ℕ) (r : ℚ) (t : MTree), onChain q p = true →
      statsAt (backpropAt p r t) q = (statsAt t q).map (fun s => bumpPair s r) := by
  induction q with
  | nil =>
    intro p r t _
    obtain ⟨d, ch⟩ := t
    cases p <;> simp [backpropAt, statsAt, getNodeAt, MTree.data, bumpStats, bumpPair]
  | cons kq q' ih =>
    intro p r t hq
    cases p with
    | nil => simp [onChain] at hq
    | cons kp p' =>
      obtain ⟨d, ch⟩ := t
      simp only [onChain, Bool.and_eq_true, decide_eq_true_eq] at hq
      obtain ⟨hk, hchain⟩ := hq
      subst hk
      simp only [backpropAt, statsAt, getNodeAt, childGet_map_if, if_pos rfl]
      cases hcg : childGet ch kq with
      | none => simp
      | some c => simp [statsAt] at ih ⊢; exact ih p' r c hchain

theorem statsAt_backpropAt_off (q : List ℕ) :
    ∀ (p : List ℕ) (r : ℚ) (t : MTree), onChain q p = false →
      statsAt (backpropAt p r t) q = statsAt t q := by
  induction q with
  | nil => intro p r t hq; simp [onChain] at hq
  | cons kq q' ih =>
    intro p r t hq
    obtain ⟨d, ch⟩ := t
    cases p with
    | nil => simp [backpropAt, statsAt, getNodeAt]
    | cons kp p' =>
      simp only [onChain, Bool.and_eq_false_iff] at hq
      by_cases hk : kq = kp
      · subst hk
        have hchain : onChain q' p' = false := by
          rcases hq with h | h
          · simp at h
          · exact h
        simp only [backpropAt, statsAt, getNodeAt, childGet_map_if, if_pos rfl]
        cases hcg : childGet ch kq with
        | none => simp
        | some c => simp [statsAt] at ih ⊢; exact ih p' r c hchain
      · simp only [backpropAt, statsAt, getNodeAt, childGet_map_if, if_neg hk]

theorem statsAt_backpropList_on (rs : List ℚ) :
    ∀ (p q : List ℕ) (t : MTree) (s : ℕ × ℚ), onChain q p = true →
      statsAt t q = some s →
      statsAt (backpropList rs p t) q = some (rs.foldl bumpPair s) := by
  induction rs with
  | nil => intro p q t s _ hs; simpa [backpropList] using hs
  | cons r rs ih =>
    intro p q t s hchain hs
    have h1 := statsAt_backpropAt_on q p r t hchain
    rw [hs] at h1
    simpa [backpropList, List.foldl] using
      ih p q (backpropAt p r t) (bumpPair s r) hchain (by simpa using h1)

/-- One incremental-mean step, in closed form. -/
theorem bumpPair_closed (n : ℕ) (q r : ℚ) :
    bumpPair (n, q) r = (n + 1, ((n : ℚ) * q + r) / ((n : ℚ) + 1)) := by
  have h1 : ((n : ℚ) + 1) ≠ 0 := by positivity
  simp only [bumpPair, Prod.mk.injEq]
  refine ⟨by trivial, ?_⟩
  field_simp
  ring

/-- Folding the incremental-mean update from visit count `n > 0` computes the
weighted arithmetic mean. -/
theorem foldl_bumpPair_from (rs : List ℚ) :
    ∀ (n : ℕ) (q : ℚ), 0 < n →
      rs.foldl bumpPair (n, q) =
        (n + rs.length, ((n : ℚ) * q + rs.sum) / ((n : ℚ) + (rs.length : ℚ))) := by
  induction rs with
  | nil =>
    intro n q hn
    have hn0 : (n : ℚ) ≠ 0 := Nat.cast_ne_zero.mpr hn.ne'
    simp only [List.foldl_nil, List.length_nil, List.sum_nil, Nat.cast_zero,
      add_zero, Nat.add_zero, Prod.mk.injEq]
    refine ⟨by trivial, ?_⟩
    field_simp
  | cons r rs ih =>
    intro n q hn
    rw [List.foldl_cons, bumpPair_closed n q r, ih (n + 1) _ (Nat.succ_pos n)]
    have h1 : ((n : ℚ) + 1) ≠ 0 := by positivity
    have h2 : ((n : ℚ) + 1 + (rs.length : ℚ)) ≠ 0 := by positivity
    simp only [Prod.mk.injEq, List.length_cons, List.sum_cons]
    constructor
    · omega
    · push_cast
      field_simp
      ring

/-- From a never-visited node, backpropagating `k` rewards yields `N = k` and
`Q` the arithmetic mean (for `k = 0` both sides read `0` because division by
zero is `0`). -/
theorem foldl_bumpPair_mean (rs : List ℚ) :
    rs.foldl bumpPair (0, 0) = (rs.length, rs.sum / (rs.length : ℚ)) := by
  cases rs with
  | nil => simp [List.foldl_nil]
  | cons r rs =>
    rw [List.foldl_cons]
    have h0 : bumpPair (0, 0) r = (1, r) := by
      simp [bumpPair]
    rw [h0, foldl_bumpPair_from rs 1 r Nat.one_pos]
    simp only [List.length_cons, List.sum_cons, Nat.cast_one, Prod.mk.injEq]
    constructor
    · omega
    · push_cast
      ring_nf

theorem statsAt_backpropList_off (rs : List ℚ) :
    ∀ (p q : List ℕ) (t : MTree), onChain q p = false →
      statsAt (backpropList rs p t) q = statsAt t q := by
  induction rs with
  | nil => intro p q t _; simp [backpropList]
  | cons r rs ih =>
    intro p q t hq
    calc statsAt (backpropList (r :: rs) p t) q
        = statsAt (backpropList rs p (backpropAt p r t)) q := by
          simp [backpropList, List.foldl]
      _ = statsAt (backpropAt p r t) q := ih p q _ hq
      _ = statsAt t q := statsAt_backpropAt_off q p r t hq

/-- A concrete 3-row, 2-column table, a root state over it, and a fresh
root node. -/
def tableA : TableContext :=
  { headers := ["name", "value"], rows := [["a", "1"], ["b", "2"], ["c", "3"]] }

def ctxA : ReasoningContext := { table := tableA, view := tableA, question := "q" }

def treeA : MTree := .mk { ctx := ctxA } []

/-- **C2.**  Backpropagation walks from the node that received the new reward
(path `p`) up through its parents to the root: every node on that chain — and
only those — has `N` incremented by 1 and `Q` updated by
`Q ← Q + (reward − Q)/N` per reward; consequently a node with no prior visits
(`N = 0, Q = 0`) ends with `N = k` and `Q` the arithmetic mean of the rewards
`r1..rk` backpropagated through it. -/
theorem c2_backprop_running_mean (t : MTree) (p q : List ℕ) (rs : List ℚ) :
    (onChain q p = true → ∀ s, statsAt t q = some s →
      statsAt (backpropList rs p t) q = some (rs.foldl bumpPair s)) ∧
    (onChain q p = false → statsAt (backpropList rs p t) q = statsAt t q) ∧
    rs.foldl bumpPair (0, 0) = (rs.length, rs.sum / (rs.length : ℚ)) :=
  ⟨fun hchain s hs => statsAt_backpropList_on rs p q t s hchain hs,
   fun hoff => statsAt_backpropList_off rs p q t hoff,
   foldl_bumpPair_mean rs⟩

/-- Witness for `c2_backprop_running_mean`: three rewards through a fresh
single-node tree leave it with `N = 3` and `Q = (1+2+3)/3 = 2`. -/
theorem c2_backprop_running_mean_witness :
    statsAt (backpropList [1, 2, 3] [] treeA) [] =
      some (([1, 2, 3] : List ℚ).foldl bumpPair (0, 0)) ∧
    ([1, 2, 3] : List ℚ).foldl bumpPair (0, 0) = (3, 2) :=
  ⟨(c2_backprop_running_mean treeA [] [] [1, 2, 3]).1 rfl (0, 0) rfl,
   by norm_num [List.foldl_cons, List.foldl_nil, bumpPair, Prod.ext_iff]⟩

/-! ## C1: UCB selection prefers unvisited children and maximises the score -/

/-- The UCB score of one `children.items()` entry, as `_select` computes it. -/
noncomputable def ucbOf (parentN1 : ℕ) (c : ℝ) (kt : ℕ × MTree) : EReal :=
  ucb_score parentN1 kt.2.data.Q kt.2.data.N c

/-- The key of the first child (in dict iteration order) with `N = 0`. -/
def firstUnvisited : List (ℕ × MTree) → Option ℕ
  | [] => Option.none
  | (k, t) :: rest => if t.data.N = 0 then some k else firstUnvisited rest

/-- A UCB score is never `-inf`: it is `⊤` for an unvisited child and a real
number otherwise. -/
theorem bot_lt_ucb (pN : ℕ) (q : ℚ) (n : ℕ) (c : ℝ) : ⊥ < ucb_score pN q n c := by
  unfold ucb_score
  split
  · exact bot_lt_top
  · exact EReal.bot_lt_coe _

/-- Once the running best score is `⊤`, no later entry can beat it. -/
theorem bestChildAux_top (pN : ℕ) (c : ℝ) :
    ∀ (ch : List (ℕ × MTree)) (bk : Option ℕ), bestChildAux pN c ch bk ⊤ = bk := by
  intro ch
  induction ch with
  | nil => intro bk; rfl
  | cons hd tl ih =>
    intro bk
    obtain ⟨k, t⟩ := hd
    simp only [bestChildAux, if_neg (not_top_lt (α := EReal)), ih]

/-- With a below-`⊤` running best, the loop lands on the first unvisited child
whenever one exists (its `⊤` score wins, and nothing can beat `⊤` later). -/
theorem bestChildAux_first_unvisited (pN : ℕ) (c : ℝ) :
    ∀ (ch : List (ℕ × MTree)) (bk : Option ℕ) (bs : EReal), bs < ⊤ →
      (∃ kt ∈ ch, kt.2.data.N = 0) →
      bestChildAux pN c ch bk bs = firstUnvisited ch := by
  intro ch
  induction ch with
  | nil =>
    intro bk bs _ hex
    simp at hex
  | cons hd tl ih =>
    intro bk bs hbs hex
    obtain ⟨k, t⟩ := hd
    by_cases hN : t.data.N = 0
    · have hs : ucb_score pN t.data.Q t.data.N c = ⊤ := by
        unfold ucb_score
        exact if_pos hN
      simp only [bestChildAux, hs, if_pos hbs, firstUnvisited, if_pos hN]
      exact bestChildAux_top pN c tl (some k)
    · have hex' : ∃ kt ∈ tl, kt.2.data.N = 0 := by
        rcases hex with ⟨kt, hmem, hkt⟩
        rcases List.mem_cons.mp hmem with h | h
        · subst h
          exact absurd hkt hN
        · exact ⟨kt, h, hkt⟩
      have hs : ucb_score pN t.data.Q t.data.N c =
          (((t.data.Q : ℝ) + c * Real.sqrt (Real.log (max 1 (pN : ℕ) : ℕ) / t.data.N) : ℝ) : EReal) := by
        unfold ucb_score
        exact if_neg hN
      simp only [bestChildAux, firstUnvisited, if_neg hN]
      split
      · exact ih (some k) _ (hs ▸ EReal.coe_lt_top _) hex'
      · exact ih bk bs hbs hex'

/-- The accumulator invariant of the best-UCB loop: either nothing beat the
running best, or the result is an entry whose score dominates the running best
and every entry's score. -/
theorem bestChildAux_max (pN : ℕ) (c : ℝ) :
    ∀ (ch : List (ℕ × MTree)) (bk : Option ℕ) (bs : EReal),
      (bestChildAux pN c ch bk bs = bk ∧ ∀ kt ∈ ch, ucbOf pN c kt ≤ bs) ∨
      (∃ kt ∈ ch, bestChildAux pN c ch bk bs = some kt.1 ∧ bs ≤ ucbOf pN c kt ∧
        ∀ kt' ∈ ch, ucbOf pN c kt' ≤ ucbOf pN c kt) := by
  intro ch
  induction ch with
  | nil =>
    intro bk bs
    left
    exact ⟨rfl, by simp⟩
  | cons hd tl ih =>
    intro bk bs
    obtain ⟨k, t⟩ := hd
    by_cases hlt : bs < ucbOf pN c (k, t)
    · have hlt' : bs < ucb_score pN t.data.Q t.data.N c := hlt
      have hstep : bestChildAux pN c ((k, t) :: tl) bk bs =
          bestChildAux pN c tl (some k) (ucbOf pN c (k, t)) := by
        simp only [bestChildAux, ucbOf]
        rw [if_pos hlt']
      rcases ih (some k) (ucbOf pN c (k, t)) with ⟨heq, hall⟩ | ⟨kt, hmem, heq, hge, hall⟩
      · right
        refine ⟨(k, t), List.mem_cons_self _ _, hstep.trans heq, le_of_lt hlt, ?_⟩
        intro kt' hmem'
        rcases List.mem_cons.mp hmem' with h | h
        · exact h ▸ le_refl _
        · exact hall kt' h
      · right
        refine ⟨kt, List.mem_cons_of_mem _ hmem, hstep.trans heq, (le_of_lt hlt).trans hge, ?_⟩
        intro kt' hmem'
        rcases List.mem_cons.mp hmem' with h | h
        · exact h ▸ hge
        · exact hall kt' h
    · have hstep : bestChildAux pN c ((k, t) :: tl) bk bs =
          bestChildAux pN c tl bk bs := by
        simp only [bestChildAux, ucbOf]
        rw [if_neg (by simpa [ucbOf] using hlt)]
      have hle : ucbOf pN c (k, t) ≤ bs := not_lt.mp hlt
      rcases ih bk bs with ⟨heq, hall⟩ | ⟨kt, hmem, heq, hge, hall⟩
      · left
        refine ⟨hstep.trans heq, ?_⟩
        intro kt' hmem'
        rcases List.mem_cons.mp hmem' with h | h
        · exact h ▸ hle
        · exact hall kt' h
      · right
        refine ⟨kt, List.mem_cons_of_mem _ hmem, hstep.trans heq, hge, ?_⟩
        intro kt' hmem'
        rcases List.mem_cons.mp hmem' with h | h
        · exact h ▸ hle.trans hge
        · exact hall kt' h

/-- The visited child of the concrete C1 instance: `N = 5`, `Q = 0.4`. -/
def visitedA : MTree := .mk { ctx := ctxA, N := 5, Q := 2 / 5 } []

/-- The unvisited child of the concrete C1 instance. -/
def unvisitedA : MTree := .mk { ctx := ctxA } []

/-- **C1.**  Selection descends while the current node has children and its
state is not done (first two conjuncts: the loop's stop condition and its
step), always moving to the child that maximises
`Q + c*sqrt(ln(max(1, N+1))/child_N)` where the call site passes `node.N + 1`
for `parent_N` (third conjunct: the chosen key carries a maximal UCB score);
a child with `N = 0` scores `+inf` so the first unvisited child wins whenever
one is present (fourth conjunct); in particular with one visited child
(`N=5, Q=0.4`) and one unvisited child, the unvisited child is picked for
every exploration constant `c` (fifth conjunct). -/
theorem c1_ucb_selection :
    (∀ (c : ℝ) (fuel : ℕ) (acc : List ℕ) (d : NodeData) (ch : List (ℕ × MTree)),
      (ch.isEmpty || d.ctx.done) = true →
      selectNode c (fuel + 1) acc (.mk d ch) = (acc, .mk d ch)) ∧
    (∀ (c : ℝ) (fuel : ℕ) (acc : List ℕ) (d : NodeData) (ch : List (ℕ × MTree))
      (k : ℕ) (t' : MTree),
      (ch.isEmpty || d.ctx.done) = false →
      bestChildAux (d.N + 1) c ch Option.none ⊥ = some k →
      childGet ch k = some t' →
      selectNode c (fuel + 1) acc (.mk d ch) = selectNode c fuel (acc ++ [k]) t') ∧
    (∀ (parentN1 : ℕ) (c : ℝ) (ch : List (ℕ × MTree)), ch ≠ [] →
      ∃ kt ∈ ch, bestChildAux parentN1 c ch Option.none ⊥ = some kt.1 ∧
        ∀ kt' ∈ ch, ucbOf parentN1 c kt' ≤ ucbOf parentN1 c kt) ∧
    (∀ (parentN1 : ℕ) (c : ℝ) (ch : List (ℕ × MTree)),
      (∃ kt ∈ ch, kt.2.data.N = 0) →
      bestChildAux parentN1 c ch Option.none ⊥ = firstUnvisited ch) ∧
    (∀ (c : ℝ) (parentN1 : ℕ),
      bestChildAux parentN1 c [(0, visitedA), (1, unvisitedA)] Option.none ⊥ =
        some 1) := by
  refine ⟨?_, ?_, ?_, ?_, ?_⟩
  · intro c fuel acc d ch hstop
    simp only [selectNode, hstop]
    rfl
  · intro c fuel acc d ch k t' hgo hbest hget
    simp only [selectNode, hgo, Bool.false_eq_true, if_false, hbest, hget]
  · intro parentN1 c ch hne
    rcases bestChildAux_max parentN1 c ch Option.none ⊥ with ⟨_, hall⟩ | h
    · obtain ⟨kt0, hmem0⟩ := List.exists_mem_of_ne_nil ch hne
      have := hall kt0 hmem0
      have hbot := bot_lt_ucb parentN1 kt0.2.data.Q kt0.2.data.N c
      exact absurd (le_bot_iff.mp this) (ne_of_gt hbot)
    · obtain ⟨kt, hmem, heq, _, hall⟩ := h
      exact ⟨kt, hmem, heq, hall⟩
  · intro parentN1 c ch hex
    exact bestChildAux_first_unvisited parentN1 c ch Option.none ⊥ bot_lt_top hex
  · intro c parentN1
    have h := bestChildAux_first_unvisited parentN1 c
      [(0, visitedA), (1, unvisitedA)] Option.none ⊥ bot_lt_top
      ⟨(1, unvisitedA), by simp, rfl⟩
    rw [h]
    rfl

/-- Witness for `c1_ucb_selection`: the concrete two-child node (visited
`N=5, Q=0.4` at key 0, unvisited at key 1) with exploration constant 1 —
selection picks key 1, the unvisited child. -/
theorem c1_ucb_selection_witness :
    bestChildAux 6 1 [(0, visitedA), (1, unvisitedA)] Option.none ⊥ = some 1 :=
  c1_ucb_selection.2.2.2.2 1 6

/-! ## C8: column resolution -/

/-- Spec-side: the index of the *last* header whose normalisation equals
`key` ("on duplicate normalized headers the later one silently overwrites the
earlier mapping"), enumerating from `i`. -/
def lastExactIndexAux (key : String) (i : ℕ) : List String → Option ℕ
  | [] => Option.none
  | h :: rest =>
    match lastExactIndexAux key (i + 1) rest with
    | some j => some j
    | Option.none => if normHeader h = key then some i else Option.none

def lastExactIndex (headers : List String) (key : String) : Option ℕ :=
  lastExactIndexAux key 0 headers

/-- Spec-side: the first element attaining the minimal key length ("preferring
the shortest candidate header, with ties broken by first-encountered
order"). -/
def firstShortest : List (String × ℕ) → Option (String × ℕ)
  | [] => Option.none
  | x :: rest =>
    match firstShortest rest with
    | Option.none => some x
    | some y => if y.1.length < x.1.length then some y else some x

/-- The soft-matching candidate list of `resolve_col`:
`[(k, i) for k, i in self.header_index.items() if key in k or k in key]`. -/
def softCands (tc : TableContext) (key : String) : List (String × ℕ) :=
  tc.header_index.filter fun kv => strContains kv.1 key || strContains key kv.1

theorem dictGet_dictSet (d : List (String × α)) (k key : String) (v : α) :
    dictGet (dictSet d k v) key = if k = key then some v else dictGet d key := by
  induction d with
  | nil => rfl
  | cons hd rest ih =>
    obtain ⟨k', v'⟩ := hd
    by_cases hk : k' = k
    · subst hk
      simp only [dictSet, if_pos rfl, dictGet]
      by_cases hkey : k' = key
      · rw [if_pos hkey, if_pos hkey]
      · rw [if_neg hkey, if_neg hkey, if_neg hkey]
    · simp only [dictSet, if_neg hk, dictGet, ih]
      by_cases hkey : k' = key
      · subst hkey
        rw [if_pos rfl, if_neg (fun h => hk h.symm), if_pos rfl]
      · rw [if_neg hkey, if_neg hkey]

/-- The built header index realises last-one-wins lookup. -/
theorem dictGet_buildIndexAux (headers : List String) :
    ∀ (i : ℕ) (d : List (String × ℕ)) (key : String),
      dictGet (buildIndexAux i headers d) key =
        match lastExactIndexAux key i headers with
        | some j => some j
        | Option.none => dictGet d key := by
  induction headers with
  | nil => intro i d key; rfl
  | cons h rest ih =>
    intro i d key
    simp only [buildIndexAux, lastExactIndexAux, ih]
    cases lastExactIndexAux key (i + 1) rest with
    | some j => rfl
    | none =>
      simp only [dictGet_dictSet]
      by_cases hh : normHeader h = key
      · rw [if_pos hh, if_pos hh]
      · rw [if_neg hh, if_neg hh]

theorem dictGet_header_index (tc : TableContext) (key : String) :
    dictGet tc.header_index key =
      match lastExactIndex tc.headers key with
      | some j => some j
      | Option.none => Option.none := by
  have h := dictGet_buildIndexAux tc.headers 0 [] key
  cases hli : lastExactIndex tc.headers key with
  | some j =>
    rw [TableContext.header_index, buildIndex, h]
    rw [lastExactIndex] at hli
    rw [hli]
  | none =>
    rw [TableContext.header_index, buildIndex, h]
    rw [lastExactIndex] at hli
    rw [hli]
    rfl

/-- The head of the stable length sort is the first shortest element. -/
theorem head_sortByLen (l : List (String × ℕ)) :
    (sortByLen l).head? = firstShortest l := by
  induction l with
  | nil => rfl
  | cons x rest ih =>
    have hstep : sortByLen (x :: rest) = sortInsertByLen x (sortByLen rest) := rfl
    rw [hstep, firstShortest, ← ih]
    cases hs : sortByLen rest with
    | nil => rfl
    | cons y ys =>
      simp only [sortInsertByLen, List.head?]
      by_cases hy : y.1.length < x.1.length
      · rw [if_pos hy, if_pos hy]
      · rw [if_neg hy, if_neg hy]

theorem firstShortest_ne_none (x : String × ℕ) (rest : List (String × ℕ)) :
    firstShortest (x :: rest) ≠ Option.none := by
  simp only [firstShortest]
  cases firstShortest rest with
  | none => simp
  | some y => by_cases hy : y.1.length < x.1.length <;> simp [hy]

/-- What the first-shortest element is: a member, strictly shorter than
everything before it, no longer than everything after it. -/
theorem firstShortest_spec (l : List (String × ℕ)) :
    ∀ kv, firstShortest l = some kv →
      ∃ pre post, l = pre ++ kv :: post ∧
        (∀ x ∈ pre, kv.1.length < x.1.length) ∧
        (∀ x ∈ post, kv.1.length ≤ x.1.length) := by
  induction l with
  | nil => intro kv h; simp [firstShortest] at h
  | cons x rest ih =>
    intro kv h
    simp only [firstShortest] at h
    cases hr : firstShortest rest with
    | none =>
      rw [hr] at h
      cases rest with
      | nil =>
        cases h
        exact ⟨[], [], rfl, by simp, by simp⟩
      | cons a t => exact absurd hr (firstShortest_ne_none a t)
    | some y =>
      rw [hr] at h
      have h' : (if y.1.length < x.1.length then some y else some x) = some kv := h
      by_cases hy : y.1.length < x.1.length
      · rw [if_pos hy] at h'
        cases h'
        obtain ⟨pre, post, heq, hpre, hpost⟩ := ih kv hr
        refine ⟨x :: pre, post, by simp [heq], ?_, hpost⟩
        intro z hz
        rcases List.mem_cons.mp hz with hz | hz
        · exact hz ▸ hy
        · exact hpre z hz
      · rw [if_neg hy] at h'
        cases h'
        obtain ⟨pre, post, heq, hpre, hpost⟩ := ih y hr
        have hxy : x.1.length ≤ y.1.length := not_lt.mp hy
        refine ⟨[], rest, rfl, by simp, ?_⟩
        intro z hz
        rw [heq] at hz
        rcases List.mem_append.mp hz with hz | hz
        · exact hxy.trans (le_of_lt (hpre z hz))
        · rcases List.mem_cons.mp hz with hz | hz
          · exact hz ▸ hxy
          · exact hxy.trans (hpost z hz)

/-- **C8.**  Column resolution returns the exact normalised header match when
one exists — a duplicate normalised header mapping to the later column index
(`lastExactIndex`) — and otherwise, among the headers related to the name by
substring containment in either direction (`softCands`), the one with the
shortest normalised header, ties broken by first-encountered order
(`firstShortest`, characterised by `firstShortest_spec`); it fails with a
lookup error when no header matches. -/
theorem c8_resolve_col (tc : TableContext) (name : String) :
    (∀ i, lastExactIndex tc.headers (normHeader name) = some i →
      tc.resolve_col name = ResolveResult.ok i) ∧
    (lastExactIndex tc.headers (normHeader name) = Option.none →
      (softCands tc (normHeader name) = [] →
        tc.resolve_col name =
          ResolveResult.keyError ("Column not found: " ++ name)) ∧
      (∀ kv, firstShortest (softCands tc (normHeader name)) = some kv →
        tc.resolve_col name = ResolveResult.ok kv.2 ∧
        ∃ pre post, softCands tc (normHeader name) = pre ++ kv :: post ∧
          (∀ x ∈ pre, kv.1.length < x.1.length) ∧
          (∀ x ∈ post, kv.1.length ≤ x.1.length))) := by
  constructor
  · intro i hlast
    have hget : dictGet tc.header_index (normHeader name) = some i := by
      rw [dictGet_header_index, hlast]
    unfold TableContext.resolve_col
    simp only [hget]
  · intro hnone
    have hget : dictGet tc.header_index (normHeader name) = Option.none := by
      rw [dictGet_header_index, hnone]
    constructor
    · intro hempty
      have hempty' : List.filter (fun kv =>
          strContains kv.1 (normHeader name) || strContains (normHeader name) kv.1)
          tc.header_index = [] := hempty
      unfold TableContext.resolve_col
      simp only [hget, hempty']
      rfl
    · intro kv hfirst
      refine ⟨?_, firstShortest_spec _ kv hfirst⟩
      have hhead : (sortByLen (softCands tc (normHeader name))).head? = some kv := by
        rw [head_sortByLen]; exact hfirst
      cases hsort : sortByLen (softCands tc (normHeader name)) with
      | nil => rw [hsort] at hhead; simp at hhead
      | cons b bs =>
        rw [hsort] at hhead
        simp only [List.head?] at hhead
        cases hhead
        have hsort' : sortByLen (List.filter (fun kv =>
            strContains kv.1 (normHeader name) || strContains (normHeader name) kv.1)
            tc.header_index) = kv :: bs := hsort
        unfold TableContext.resolve_col
        simp only [hget, hsort']

/-- Witness for `c8_resolve_col`: exact match with a duplicate normalised
header (headers `"A"` and `" a "` both normalise to `"a"`; the later column 1
wins), and fuzzy match (name `"c"` is contained in both `"abc"` and `"bc"`;
the shorter header `"bc"` at column 1 wins). -/
theorem c8_resolve_col_witness :
    TableContext.resolve_col ⟨["A", " a "], []⟩ "a" = ResolveResult.ok 1 ∧
    TableContext.resolve_col ⟨["abc", "bc"], []⟩ "c" = ResolveResult.ok 1 :=
  ⟨(c8_resolve_col ⟨["A", " a "], []⟩ "a").1 1 (by decide),
   (((c8_resolve_col ⟨["abc", "bc"], []⟩ "c").2 (by decide)).2 ("bc", 1)
     (by decide)).1⟩

/-! ## C6: the execution boundary never raises -/

/-- **C6.**  `TQAExecutionAgent.execute` is a *total* function of the context
and the action spec (the `try/except Exception` catches every failure raised
by `build_action` — non-dict specs, missing/falsy/non-string `type`, unknown
tags, unexpected constructor fields, `validate()` — and by `apply`): on
success it forwards the action's result; on any internal failure it returns
the original context unchanged together with an observation carrying
`ok: false`, the error-type label, the error message and the numeric penalty
field. -/
theorem c6_execute_never_raises (reg : List (String × ActionClass))
    (penalize : ℚ) (ctx : ReasoningContext) (spec : PyVal) :
    (∀ r, buildAndRun reg ctx spec = Except.ok r →
      tqaExecute reg penalize ctx spec = r) ∧
    (∀ e, buildAndRun reg ctx spec = Except.error e →
      tqaExecute reg penalize ctx spec = (ctx, errorObs e penalize) ∧
      (tqaExecute reg penalize ctx spec).1 = ctx ∧
      dictGet (tqaExecute reg penalize ctx spec).2 "ok" =
        some (PyVal.bool false) ∧
      dictGet (tqaExecute reg penalize ctx spec).2 "error_type" =
        some (PyVal.str e.etype) ∧
      dictGet (tqaExecute reg penalize ctx spec).2 "error" =
        some (PyVal.str e.msg) ∧
      dictGet (tqaExecute reg penalize ctx spec).2 "penalty" =
        some (PyVal.num penalize)) := by
  constructor
  · intro r hok
    unfold tqaExecute
    rw [hok]
  · intro e herr
    have hmain : tqaExecute reg penalize ctx spec = (ctx, errorObs e penalize) := by
      unfold tqaExecute
      rw [herr]
    refine ⟨hmain, ?_, ?_, ?_, ?_, ?_⟩ <;> rw [hmain] <;> rfl

/-- A spec with an unknown action type tag. -/
def bogusSpec : PyVal := PyVal.dict [("type", PyVal.str "Bogus")]

/-- Witness for `c6_execute_never_raises`: executing an unknown action type
against the `Finish`-only registry yields the original context and the
`ok: false` error observation. -/
theorem c6_execute_never_raises_witness :
    tqaExecute finishRegistry (-1000000) ctxA bogusSpec =
      (ctxA, errorObs ⟨"ActionError", "Unknown action type: Bogus"⟩ (-1000000)) ∧
    dictGet (tqaExecute finishRegistry (-1000000) ctxA bogusSpec).2 "ok" =
      some (PyVal.bool false) :=
  ⟨((c6_execute_never_raises finishRegistry (-1000000) ctxA bogusSpec).2
      ⟨"ActionError", "Unknown action type: Bogus"⟩ rfl).1,
   ((c6_execute_never_raises finishRegistry (-1000000) ctxA bogusSpec).2
      ⟨"ActionError", "Unknown action type: Bogus"⟩ rfl).2.2.1⟩

/-! ## Branch equations of one runner iteration -/

/-- Terminal/depth branch (`core/mcts.py` lines 44-47). -/
theorem runIter_terminal (P : MCTSParams) (maxc fuel : ℕ) (st : RunState)
    (sp : List ℕ) (d : NodeData) (ch : List (ℕ × MTree))
    (hsel : selectNode P.exploration_c fuel [] st.root = (sp, .mk d ch))
    (hterm : (d.ctx.done || P.heuristics.should_stop d.ctx.depth) = true) :
    runIter P maxc fuel st =
      ({ root := updateCtxAt sp (collectCtx d.ctx Option.none st.candidates maxc).1 st.root,
         candidates := (collectCtx d.ctx Option.none st.candidates maxc).2,
         iters := st.iters + 1 }, false) := by
  unfold runIter
  rw [hsel]
  simp only [MTree.data, hterm, if_true]

/-- Dead-end branch (`core/mcts.py` lines 53-61). -/
theorem runIter_deadEnd (P : MCTSParams) (maxc fuel : ℕ) (st : RunState)
    (sp : List ℕ) (d : NodeData) (ch : List (ℕ × MTree))
    (hsel : selectNode P.exploration_c fuel [] st.root = (sp, .mk d ch))
    (hterm : (d.ctx.done || P.heuristics.should_stop d.ctx.depth) = false)
    (hplan : P.planner d.ctx = []) :
    runIter P maxc fuel st =
      ({ root := backpropAt sp (P.evaluator (deadEndCtx d.ctx)).score st.root,
         candidates := (collectCtx (deadEndCtx d.ctx)
           (some (P.evaluator (deadEndCtx d.ctx))) st.candidates maxc).2,
         iters := st.iters + 1 }, false) := by
  unfold runIter
  rw [hsel]
  simp only [MTree.data, hterm, Bool.false_eq_true, if_false, hplan,
    List.isEmpty_nil, if_true]

/-- Expansion branch (`core/mcts.py` lines 63-98). -/
theorem runIter_expand (P : MCTSParams) (maxc fuel : ℕ) (st : RunState)
    (sp : List ℕ) (d : NodeData) (ch : List (ℕ × MTree))
    (hsel : selectNode P.exploration_c fuel [] st.root = (sp, .mk d ch))
    (hterm : (d.ctx.done || P.heuristics.should_stop d.ctx.depth) = false)
    (hplan : (P.planner d.ctx).isEmpty = false) :
    runIter P maxc fuel st =
      (let pick := pickUntriedOrBest (ch.map Prod.fst) (P.planner d.ctx)
       let ce := expandedChildCtx P d.ctx pick.2
       let child : MTree :=
         .mk { ctx := ce.1, N := 0, Q := 0, prior := 1,
               last_action_index := some pick.1 } []
       let root2 := backpropAt (sp ++ [pick.1]) ce.2.score
         (attachChildAt sp pick.1 child st.root)
       let col := collectCtx ce.1 (some ce.2) st.candidates maxc
       ({ root := updateCtxAt (sp ++ [pick.1]) col.1 root2,
          candidates := col.2, iters := st.iters + 1 },
        decide (maxc ≤ col.2.length))) := by
  unfold runIter
  rw [hsel]
  simp only [MTree.data, MTree.children, hterm, Bool.false_eq_true, if_false,
    hplan]

/-! ## C9: the dead-end branch -/

/-- `backpropAt` changes no tree structure: a path leads to a node afterwards
iff it did before. -/
theorem getNodeAt_backpropAt_isSome (q : List ℕ) :
    ∀ (p : List ℕ) (r : ℚ) (t : MTree),
      (getNodeAt q (backpropAt p r t)).isSome = (getNodeAt q t).isSome := by
  induction q with
  | nil =>
    intro p r t
    obtain ⟨d, ch⟩ := t
    cases p <;> rfl
  | cons kq q' ih =>
    intro p r t
    obtain ⟨d, ch⟩ := t
    cases p with
    | nil => rfl
    | cons kp p' =>
      simp only [backpropAt, getNodeAt, childGet_map_if]
      by_cases hk : kq = kp
      · rw [if_pos hk, hk]
        cases childGet ch kp with
        | none => rfl
        | some c => simp only [Option.map_some', Option.bind_some]; exact ih p' r c
      · rw [if_neg hk]

theorem dictGet_append (a b : List (String × α)) (k : String) :
    dictGet (a ++ b) k =
      match dictGet a k with
      | some v => some v
      | Option.none => dictGet b k := by
  induction a with
  | nil => rfl
  | cons hd rest ih =>
    obtain ⟨k', v'⟩ := hd
    by_cases hk : k' = k
    · simp only [List.cons_append, dictGet, if_pos hk]
    · simp only [List.cons_append, dictGet, if_neg hk]
      exact ih

theorem dictGet_mergeMap (a b : PyDict) (k : String) :
    dictGet (a.map fun kv => match dictGet b kv.1 with
      | some v => (kv.1, v)
      | Option.none => kv) k =
    (dictGet a k).map fun va => (dictGet b k).getD va := by
  induction a with
  | nil => rfl
  | cons hd rest ih =>
    obtain ⟨k', v'⟩ := hd
    by_cases hk : k' = k
    · subst hk
      cases hb : dictGet b k' with
      | none => simp [dictGet, hb]
      | some w => simp [dictGet, hb]
    · cases hb : dictGet b k' with
      | none => simp [dictGet, hb, hk, ih]
      | some w => simp [dictGet, hb, hk, ih]

/-- `{**a, **b}` keeps every key of `a`, with `b`'s value where `b` also binds
it (last-writer-wins). -/
theorem dictGet_dictMerge_left (a b : PyDict) (k : String) (va : PyVal)
    (ha : dictGet a k = some va) :
    dictGet (dictMerge a b) k = some ((dictGet b k).getD va) := by
  unfold dictMerge
  rw [dictGet_append, dictGet_mergeMap, ha]
  rfl

theorem onChain_self (p : List ℕ) : onChain p p = true := by
  induction p with
  | nil => rfl
  | cons k p ih => simp [onChain, ih]

/-- The path as finalised by `_maybe_collect_ctx` when an evaluation is
present: `total_score` overwritten by the evaluator score, metadata merged
with the evaluator's extra when truthy, `final_answer` from the state. -/
def collectedPath (ctx : ReasoningContext) (er : EvalResult) : ReasoningPath :=
  { ctx.path with
    total_score := er.score
    meta := if er.extra.isEmpty then ctx.path.meta
            else dictMerge ctx.path.meta er.extra
    final_answer := ctx.answer }

/-- The path as finalised by `_maybe_collect_ctx` without an evaluation
(`er=None`): `total_score = float(total_score or 0.0)`, `final_answer` from
the state. -/
def collectedPathNone (ctx : ReasoningContext) : ReasoningPath :=
  { ctx.path with
    total_score := if ctx.path.total_score = 0 then 0 else ctx.path.total_score
    final_answer := ctx.answer }

theorem collectCtx_full (ctx : ReasoningContext) (er : Option EvalResult)
    (cands : List ReasoningPath) (maxc : ℕ) (h : maxc ≤ cands.length) :
    collectCtx ctx er cands maxc = (ctx, cands) := by
  unfold collectCtx
  rw [if_pos h]

theorem collectCtx_skip (ctx : ReasoningContext) (er : Option EvalResult)
    (cands : List ReasoningPath) (maxc : ℕ) (hfull : ¬ maxc ≤ cands.length)
    (hnd : (ctx.done || ctx.path.terminal) = false) :
    collectCtx ctx er cands maxc = (ctx, cands) := by
  unfold collectCtx
  rw [if_neg hfull, if_neg (by rw [hnd]; exact Bool.false_ne_true)]

theorem collectCtx_some_eq (ctx : ReasoningContext) (er : EvalResult)
    (cands : List ReasoningPath) (maxc : ℕ) (hfull : ¬ maxc ≤ cands.length)
    (hdone : (ctx.done || ctx.path.terminal) = true) :
    collectCtx ctx (some er) cands maxc =
      ({ ctx with path := collectedPath ctx er },
       cands ++ [collectedPath ctx er]) := by
  unfold collectCtx
  rw [if_neg hfull, if_pos hdone]
  rfl

theorem collectCtx_none_eq (ctx : ReasoningContext)
    (cands : List ReasoningPath) (maxc : ℕ) (hfull : ¬ maxc ≤ cands.length)
    (hdone : (ctx.done || ctx.path.terminal) = true) :
    collectCtx ctx Option.none cands maxc =
      ({ ctx with path := collectedPathNone ctx },
       cands ++ [collectedPathNone ctx]) := by
  unfold collectCtx
  rw [if_neg hfull, if_pos hdone]
  rfl

/-- **C9.**  Whenever Planning returns an empty proposal list for the selected
node (and the node is neither done nor depth-stopped), the iteration forks the
node's state into `deadEndCtx` — done, path terminal, `dead_end` metadata
flag — evaluates it and backpropagates that reward into the current node's
chain; no tree node is created or attached (every path resolves to a node
after the iteration iff it did before), and the candidate list either stays
(quota full) or grows by exactly one entry whose path metadata carries the
`dead_end` key. -/
theorem c9_dead_end (P : MCTSParams) (maxc fuel : ℕ) (st : RunState)
    (sp : List ℕ) (d : NodeData) (ch : List (ℕ × MTree))
    (hsel : selectNode P.exploration_c fuel [] st.root = (sp, .mk d ch))
    (hterm : (d.ctx.done || P.heuristics.should_stop d.ctx.depth) = false)
    (hplan : P.planner d.ctx = []) :
    (runIter P maxc fuel st).2 = false ∧
    (runIter P maxc fuel st).1.root =
      backpropAt sp (P.evaluator (deadEndCtx d.ctx)).score st.root ∧
    (∀ q, (getNodeAt q (runIter P maxc fuel st).1.root).isSome =
      (getNodeAt q st.root).isSome) ∧
    (deadEndCtx d.ctx).done = true ∧
    (deadEndCtx d.ctx).path.terminal = true ∧
    (∀ s, statsAt st.root sp = some s →
      statsAt (runIter P maxc fuel st).1.root sp =
        some (bumpPair s (P.evaluator (deadEndCtx d.ctx)).score)) ∧
    ((maxc ≤ st.candidates.length ∧
        (runIter P maxc fuel st).1.candidates = st.candidates) ∨
      ∃ p', (runIter P maxc fuel st).1.candidates = st.candidates ++ [p'] ∧
        p'.terminal = true ∧
        dictGet p'.meta "dead_end" =
          some ((dictGet (P.evaluator (deadEndCtx d.ctx)).extra "dead_end").getD
            (PyVal.bool true))) := by
  have heq := runIter_deadEnd P maxc fuel st sp d ch hsel hterm hplan
  refine ⟨by rw [heq], by rw [heq], ?_, rfl, rfl, ?_, ?_⟩
  · intro q
    rw [heq]
    exact getNodeAt_backpropAt_isSome q sp _ st.root
  · intro s hs
    rw [heq]
    show statsAt (backpropAt sp (P.evaluator (deadEndCtx d.ctx)).score st.root) sp = _
    rw [statsAt_backpropAt_on sp sp _ st.root (onChain_self sp), hs]
    rfl
  · rw [heq]
    by_cases hfull : maxc ≤ st.candidates.length
    · left
      exact ⟨hfull, by rw [collectCtx_full _ _ _ _ hfull]⟩
    · right
      rw [collectCtx_some_eq (deadEndCtx d.ctx) (P.evaluator (deadEndCtx d.ctx))
        st.candidates maxc hfull rfl]
      refine ⟨collectedPath (deadEndCtx d.ctx) (P.evaluator (deadEndCtx d.ctx)),
        rfl, rfl, ?_⟩
      have h1 : dictGet (deadEndCtx d.ctx).path.meta "dead_end" =
          some (PyVal.bool true) := by
        show dictGet (dictSet d.ctx.path.meta "dead_end" (PyVal.bool true))
          "dead_end" = _
        rw [dictGet_dictSet, if_pos rfl]
      show dictGet (if (P.evaluator (deadEndCtx d.ctx)).extra.isEmpty
          then (deadEndCtx d.ctx).path.meta
          else dictMerge (deadEndCtx d.ctx).path.meta
            (P.evaluator (deadEndCtx d.ctx)).extra) "dead_end" = _
      by_cases hex : (P.evaluator (deadEndCtx d.ctx)).extra.isEmpty
      · rw [if_pos hex, h1, List.isEmpty_iff.mp hex]
        rfl
      · rw [if_neg hex]
        exact dictGet_dictMerge_left _ _ _ _ h1

/-- Collaborators for the dead-end scenario: the planner always proposes
nothing, the evaluator scores 1 with no extra metadata, the executor is never
reached. -/
def deadParams : MCTSParams :=
  { planner := fun _ => []
    executor := fun c _ => (c, [])
    evaluator := fun _ => { score := 1 }
    exploration_c := 1 }

/-- Witness for `c9_dead_end`: one iteration on a fresh root with the
always-empty planner. -/
theorem c9_dead_end_witness :
    (runIter deadParams 8 1 { root := treeA, candidates := [], iters := 0 }).2 =
      false ∧
    (runIter deadParams 8 1 { root := treeA, candidates := [], iters := 0 }).1.root =
      backpropAt [] (deadParams.evaluator (deadEndCtx ctxA)).score treeA :=
  ⟨(c9_dead_end deadParams 8 1 { root := treeA, candidates := [], iters := 0 }
      [] { ctx := ctxA } [] rfl rfl rfl).1,
   (c9_dead_end deadParams 8 1 { root := treeA, candidates := [], iters := 0 }
      [] { ctx := ctxA } [] rfl rfl rfl).2.1⟩

/-! ## C10: the all-positions-tried fallback replaces `children[0]` -/

theorem childGet_childSet (ch : List (ℕ × MTree)) (k j : ℕ) (c : MTree) :
    childGet (childSet ch k c) j = if k = j then some c else childGet ch j := by
  induction ch with
  | nil => rfl
  | cons hd rest ih =>
    obtain ⟨k', c'⟩ := hd
    by_cases hk : k' = k
    · subst hk
      simp only [childSet, if_pos rfl, childGet]
      by_cases hj : k' = j
      · rw [if_pos hj, if_pos hj]
      · rw [if_neg hj, if_neg hj, if_neg hj]
    · simp only [childSet, if_neg hk, childGet, ih]
      by_cases hj : k' = j
      · subst hj
        rw [if_pos rfl, if_neg (fun h => hk h.symm), if_pos rfl]
      · rw [if_neg hj, if_neg hj]

theorem getNodeAt_append (p : List ℕ) :
    ∀ (q : List ℕ) (t : MTree),
      getNodeAt (p ++ q) t = (getNodeAt p t).bind (getNodeAt q) := by
  induction p with
  | nil => intro q t; rfl
  | cons k p' ih =>
    intro q t
    obtain ⟨d, ch⟩ := t
    simp only [List.cons_append, getNodeAt]
    cases childGet ch k with
    | none => rfl
    | some c0 => simp only [Option.some_bind]; exact ih q c0

theorem getNodeAt_attachChildAt (sp : List ℕ) :
    ∀ (k : ℕ) (c t : MTree), (getNodeAt sp t).isSome = true →
      getNodeAt (sp ++ [k]) (attachChildAt sp k c t) = some c := by
  induction sp with
  | nil =>
    intro k c t _
    obtain ⟨d, ch⟩ := t
    simp [attachChildAt, getNodeAt, childGet_childSet]
  | cons k0 sp' ih =>
    intro k c t hv
    obtain ⟨d, ch⟩ := t
    simp only [getNodeAt] at hv
    cases hcg : childGet ch k0 with
    | none => rw [hcg] at hv; simp at hv
    | some c0 =>
      rw [hcg] at hv
      simp only [Option.some_bind] at hv
      simp only [List.cons_append, attachChildAt, getNodeAt, childGet_map_if,
        if_pos rfl, hcg, Option.map_some', Option.some_bind]
      exact ih k c c0 hv

theorem pickUntriedAux_all_tried (keys : List ℕ) :
    ∀ (specs : List PyVal) (i : ℕ),
      (∀ j, j < specs.length → (i + j) ∈ keys) →
      pickUntriedAux keys i specs = Option.none := by
  intro specs
  induction specs with
  | nil => intro i _; rfl
  | cons s rest ih =>
    intro i h
    have h0 : i ∈ keys := by simpa using h 0 (Nat.succ_pos _)
    simp only [pickUntriedAux, if_pos h0]
    exact ih (i + 1) fun j hj => by
      have := h (j + 1) (Nat.succ_lt_succ hj)
      simpa [Nat.add_assoc, Nat.add_comm 1 j] using this

/-- **C10.**  When every position of the planner's proposal list is already a
key of the node's children map, `_pick_untried_or_best` falls through its
untried scan and re-selects position 0 with the (freshly proposed) top-ranked
spec; the subsequent `node.children[a_idx] = child` assignment replaces the
stored child at key 0 with the freshly created node — built from
`expandedChildCtx` with `N = 0` and `Q = 0` — and the former child's entire
subtree, along with its accumulated visit statistics, is no longer reachable
in the tree. -/
theorem c10_all_tried_replaces_child :
    (∀ (keys : List ℕ) (specs : List PyVal), specs ≠ [] →
      (∀ i, i < specs.length → i ∈ keys) →
      pickUntriedOrBest keys specs = (0, specs.headD PyVal.none)) ∧
    (∀ (ch : List (ℕ × MTree)) (c : MTree),
      childGet (childSet ch 0 c) 0 = some c) ∧
    (∀ (sp : List ℕ) (c t : MTree), (getNodeAt sp t).isSome = true →
      getNodeAt (sp ++ [0]) (attachChildAt sp 0 c t) = some c) ∧
    (∀ (P : MCTSParams) (parent : ReasoningContext) (aSpec : PyVal)
      (sp : List ℕ) (t : MTree) (li : Option ℕ),
      (getNodeAt sp t).isSome = true →
      statsAt (attachChildAt sp 0
          (.mk { ctx := (expandedChildCtx P parent aSpec).1, N := 0, Q := 0,
                 prior := 1, last_action_index := li } []) t) (sp ++ [0]) =
        some (0, 0) ∧
      (∀ q, q ≠ [] → getNodeAt (sp ++ 0 :: q)
        (attachChildAt sp 0
          (.mk { ctx := (expandedChildCtx P parent aSpec).1, N := 0, Q := 0,
                 prior := 1, last_action_index := li } []) t) = Option.none)) := by
  refine ⟨?_, ?_, ?_, ?_⟩
  · intro keys specs hne htried
    unfold pickUntriedOrBest
    rw [pickUntriedAux_all_tried keys specs 0 (fun j hj => by simpa using htried j hj)]
  · intro ch c
    rw [childGet_childSet, if_pos rfl]
  · intro sp c t hv
    exact getNodeAt_attachChildAt sp 0 c t hv
  · intro P parent aSpec sp t li hv
    have hat := getNodeAt_attachChildAt sp 0
      (.mk { ctx := (expandedChildCtx P parent aSpec).1, N := 0, Q := 0,
             prior := 1, last_action_index := li } []) t hv
    constructor
    · rw [statsAt, hat]
      rfl
    · intro q hq
      have : sp ++ 0 :: q = (sp ++ [0]) ++ q := by simp
      rw [this, getNodeAt_append, hat]
      cases q with
      | nil => exact absurd rfl hq
      | cons kq q' => rfl

/-- Witness for `c10_all_tried_replaces_child`: a single proposal whose
position 0 is already a child key, and a root whose existing child at key 0
is replaced by a fresh leaf. -/
theorem c10_all_tried_replaces_child_witness :
    pickUntriedOrBest [0] [bogusSpec] = (0, bogusSpec) ∧
    childGet (childSet [(0, visitedA)] 0 unvisitedA) 0 = some unvisitedA :=
  ⟨c10_all_tried_replaces_child.1 [0] [bogusSpec] (by simp) (by decide),
   c10_all_tried_replaces_child.2.1 [(0, visitedA)] unvisitedA⟩

/-! ## Sortedness of the returned candidate list -/

/-- Sorted by `total_score`, descending (ties in any order). -/
abbrev SortedDesc (l : List ReasoningPath) : Prop :=
  List.Chain' (fun a b => b.total_score ≤ a.total_score) l

theorem head?_sortInsertByScore (x : ReasoningPath) (s : List ReasoningPath) :
    (sortInsertByScore x s).head? = some x ∨
    (sortInsertByScore x s).head? = s.head? := by
  cases s with
  | nil => left; rfl
  | cons y ys =>
    by_cases hy : x.total_score < y.total_score
    · right
      simp only [sortInsertByScore, if_pos hy]
      rfl
    · left
      simp only [sortInsertByScore, if_neg hy]
      rfl

theorem sortedDesc_sortInsertByScore (x : ReasoningPath) (s : List ReasoningPath)
    (hs : SortedDesc s) : SortedDesc (sortInsertByScore x s) := by
  induction s with
  | nil => exact List.chain'_singleton x
  | cons y ys ih =>
    obtain ⟨hy0, hys⟩ := List.chain'_cons'.mp hs
    by_cases hy : x.total_score < y.total_score
    · simp only [sortInsertByScore, if_pos hy]
      refine List.chain'_cons'.mpr ⟨?_, ih hys⟩
      intro z hz
      rcases head?_sortInsertByScore x ys with h | h
      · rw [h] at hz
        cases hz
        exact le_of_lt hy
      · rw [h] at hz
        exact hy0 z hz
    · simp only [sortInsertByScore, if_neg hy]
      refine List.chain'_cons'.mpr ⟨?_, ?_⟩
      · intro z hz
        cases hz
        exact not_lt.mp hy
      · exact List.chain'_cons'.mpr ⟨hy0, hys⟩

theorem sortedDesc_sortByScoreDesc (l : List ReasoningPath) :
    SortedDesc (sortByScoreDesc l) := by
  induction l with
  | nil => exact List.chain'_nil
  | cons x rest ih => exact sortedDesc_sortInsertByScore x (sortByScoreDesc rest) ih

theorem sortedDesc_take (l : List ReasoningPath) (n : ℕ) (hl : SortedDesc l) :
    SortedDesc (l.take n) := by
  exact List.Chain'.take hl n

/-! ## C5: the runner's output contract and the pipeline's empty-list guard -/

/-- **C5 (counterexample).**  `MCTSRunner.run` itself contains no `raise`: it
is a total function of its inputs, and with an exhausted iteration budget
(`num_iters = 0`) it returns the empty candidate list — no error is raised by
the runner.  (The claim asserts the *runner* never returns an empty list
without raising; the raise actually lives in `main.run_pipeline`.) -/
theorem c5_counterexample : runMCTS deadParams ctxA 0 8 = [] := rfl

/-- **C5 (amended).**  Every run returns a candidate list sorted by
`total_score` descending with length at most `max_candidates`; the list may be
empty, in which case it is the *pipeline* (`main.run_pipeline` lines 216-217,
`pipelineGuard`) that raises the `RuntimeError` describing why no candidates
could be produced, and a non-empty list passes through the guard unchanged. -/
theorem c5_run_output (P : MCTSParams) (root_ctx : ReasoningContext)
    (num_iters max_candidates : ℕ) :
    SortedDesc (runMCTS P root_ctx num_iters max_candidates) ∧
    (runMCTS P root_ctx num_iters max_candidates).length ≤ max_candidates ∧
    (runMCTS P root_ctx num_iters max_candidates = [] →
      pipelineGuard (runMCTS P root_ctx num_iters max_candidates) =
        Except.error "No candidate reasoning paths produced by MCTS.") ∧
    (runMCTS P root_ctx num_iters max_candidates ≠ [] →
      pipelineGuard (runMCTS P root_ctx num_iters max_candidates) =
        Except.ok (runMCTS P root_ctx num_iters max_candidates)) := by
  refine ⟨?_, ?_, ?_, ?_⟩
  · exact sortedDesc_take _ _ (sortedDesc_sortByScoreDesc _)
  · exact List.length_take_le _ _
  · intro h
    rw [pipelineGuard, if_pos (by rw [h]; rfl)]
  · intro h
    rw [pipelineGuard, if_neg ?_]
    intro hc
    exact h (List.isEmpty_iff.mp hc)

/-- Witness for `c5_run_output`: two dead-end iterations with candidate cap 1
produce a singleton list, which passes the pipeline guard. -/
theorem c5_run_output_witness :
    (runMCTS deadParams ctxA 2 1).length ≤ 1 ∧
    pipelineGuard (runMCTS deadParams ctxA 2 1) =
      Except.ok (runMCTS deadParams ctxA 2 1) :=
  ⟨(c5_run_output deadParams ctxA 2 1).2.1,
   (c5_run_output deadParams ctxA 2 1).2.2.2
     (List.ne_nil_of_length_pos (by rw [show (runMCTS deadParams ctxA 2 1).length = 1 from rfl]; exact Nat.one_pos))⟩

/-! ## C3: when the loop actually stops -/

/-- **C3 (counterexample).**  The `break` on the candidate quota exists only
in the expansion branch.  With the always-empty planner and `max_candidates =
1`, the quota is already reached inside the *dead-end* branch of the very
first iteration (first conjunct: one iteration suffices to fill the quota) —
yet a run with budget 3 executes all 3 iterations (second conjunct) and
backpropagates two further rewards into the root, whose visit count ends at 3
(third conjunct).  The loop therefore does not stop as soon as the quota is
reached "in whichever branch". -/
theorem c3_counterexample :
    (runFull deadParams ctxA 1 1).candidates.length = 1 ∧
    (runFull deadParams ctxA 3 1).iters = 3 ∧
    (statsAt (runFull deadParams ctxA 3 1).root []).map Prod.fst = some 3 :=
  ⟨rfl, rfl, rfl⟩

/-- **C3 (amended).**  The iteration loop stops early on the candidate quota
only from the expansion branch: the terminal/depth branch and the dead-end
branch never break (first two conjuncts), while the expansion branch breaks
exactly when the quota is reached after its collection (third conjunct); the
returned list is the collected candidates sorted by `total_score` descending
with length at most `max_candidates` (last two conjuncts). -/
theorem c3_break_only_in_expansion (P : MCTSParams) (maxc fuel num_iters : ℕ)
    (st : RunState) (root_ctx : ReasoningContext)
    (sp : List ℕ) (d : NodeData) (ch : List (ℕ × MTree))
    (hsel : selectNode P.exploration_c fuel [] st.root = (sp, .mk d ch)) :
    ((d.ctx.done || P.heuristics.should_stop d.ctx.depth) = true →
      (runIter P maxc fuel st).2 = false) ∧
    ((d.ctx.done || P.heuristics.should_stop d.ctx.depth) = false →
      P.planner d.ctx = [] → (runIter P maxc fuel st).2 = false) ∧
    ((d.ctx.done || P.heuristics.should_stop d.ctx.depth) = false →
      (P.planner d.ctx).isEmpty = false →
      (runIter P maxc fuel st).2 =
        decide (maxc ≤ (runIter P maxc fuel st).1.candidates.length)) ∧
    SortedDesc (runMCTS P root_ctx num_iters maxc) ∧
    (runMCTS P root_ctx num_iters maxc).length ≤ maxc := by
  refine ⟨?_, ?_, ?_,
    sortedDesc_take _ _ (sortedDesc_sortByScoreDesc _), List.length_take_le _ _⟩
  · intro hterm
    rw [runIter_terminal P maxc fuel st sp d ch hsel hterm]
  · intro hterm hplan
    rw [runIter_deadEnd P maxc fuel st sp d ch hsel hterm hplan]
  · intro hterm hplan
    rw [runIter_expand P maxc fuel st sp d ch hsel hterm hplan]

/-- A root state that is already done, and its one-node tree. -/
def ctxDoneA : ReasoningContext :=
  { table := tableA, view := tableA, question := "q", done := true,
    answer := PyVal.str "done" }

def treeDoneA : MTree := .mk { ctx := ctxDoneA } []

/-- Witness for `c3_break_only_in_expansion`: the terminal branch of an
iteration on an already-done root reports no break. -/
theorem c3_break_only_in_expansion_witness :
    (runIter deadParams 8 1 { root := treeDoneA, candidates := [], iters := 0 }).2 =
      false :=
  (c3_break_only_in_expansion deadParams 8 1 0
    { root := treeDoneA, candidates := [], iters := 0 } ctxA []
    { ctx := ctxDoneA } [] rfl).1 rfl

/-! ## C4: the end-to-end single-terminal-action run -/

/-- The single proposal: `{"type": "Finish", "literal": "42"}` — one action
type that always marks the state done with a fixed literal answer. -/
def finishSpec : PyVal :=
  PyVal.dict [("type", PyVal.str "Finish"), ("literal", PyVal.str "42")]

/-- The end-to-end collaborators: the planner always proposes exactly the
`Finish` spec, execution goes through the real registry/execution boundary,
the evaluator is a constant. -/
def finishParams : MCTSParams :=
  { planner := fun _ => [finishSpec]
    executor := tqaExecute finishRegistry (-1000000)
    evaluator := fun _ => { score := 1 }
    exploration_c := 1 }

/-- The terminal child state produced by the first expansion. -/
def childCtx1 : ReasoningContext := (expandedChildCtx finishParams ctxA finishSpec).1

def er1 : EvalResult := { score := 1 }

/-- The path collected from the terminal child (and re-collected by later
iterations). -/
def p1 : ReasoningPath := collectedPath childCtx1 er1

def rootD1 : NodeData := bumpStats { ctx := ctxA } 1

def childD0 : NodeData :=
  { ctx := childCtx1, N := 0, Q := 0, prior := 1, last_action_index := some 0 }

def childD1 : NodeData :=
  { bumpStats childD0 1 with ctx := { childCtx1 with path := p1 } }

/-- The tree after the first iteration: root with one terminal child. -/
def T1 : MTree := .mk rootD1 [(0, .mk childD1 [])]

theorem finish_iter1 :
    runIter finishParams 3 11 { root := treeA, candidates := [], iters := 0 } =
      ({ root := T1, candidates := [p1], iters := 1 }, false) := rfl

/-- Descending one level: at a non-done root with a single child, selection
moves to that child (its UCB score, finite or `⊤`, beats the initial `-inf`)
and stops there because the child has no children. -/
theorem selectNode_two_level (c : ℝ) (fuel : ℕ) (d0 dc : NodeData)
    (h0 : d0.ctx.done = false) :
    selectNode c (fuel + 2) [] (.mk d0 [(0, .mk dc [])]) = ([0], .mk dc []) := by
  have h1 : bestChildAux (d0.N + 1) c [(0, MTree.mk dc [])] Option.none ⊥ =
      some 0 := by
    unfold bestChildAux
    rw [if_pos (bot_lt_ucb _ _ _ _)]
    rfl
  show selectNode c (fuel + 1 + 1) [] (.mk d0 [(0, .mk dc [])]) = _
  unfold selectNode
  rw [if_neg (show ¬ (([(0, MTree.mk dc [])].isEmpty || d0.ctx.done) = true) by
    simp [h0]), h1]
  rfl

theorem finish_select_T1 (fuel : ℕ) :
    selectNode finishParams.exploration_c (fuel + 2) [] T1 =
      ([0], .mk childD1 []) :=
  selectNode_two_level _ fuel rootD1 childD1 rfl

/-- Iterations after the first: the terminal leaf is re-selected and, while
the quota is not full, its (already collected) path is appended to the
candidate list again; the tree does not change. -/
theorem finish_iter_collect (cands : List ReasoningPath) (i : ℕ)
    (h : ¬ 3 ≤ cands.length) :
    runIter finishParams 3 11 { root := T1, candidates := cands, iters := i } =
      ({ root := T1, candidates := cands ++ [p1], iters := i + 1 }, false) := by
  have hsel : selectNode finishParams.exploration_c 11 [] T1 =
      ([0], .mk childD1 []) := finish_select_T1 9
  rw [runIter_terminal finishParams 3 11
      { root := T1, candidates := cands, iters := i } [0] childD1 [] hsel rfl,
    collectCtx_none_eq childD1.ctx cands 3 h rfl]
  rfl

/-- Once the quota is full, further iterations only re-select the terminal
leaf and change nothing but the iteration counter. -/
theorem finish_iter_noop (cands : List ReasoningPath) (i : ℕ)
    (h : 3 ≤ cands.length) :
    runIter finishParams 3 11 { root := T1, candidates := cands, iters := i } =
      ({ root := T1, candidates := cands, iters := i + 1 }, false) := by
  have hsel : selectNode finishParams.exploration_c 11 [] T1 =
      ([0], .mk childD1 []) := finish_select_T1 9
  rw [runIter_terminal finishParams 3 11
      { root := T1, candidates := cands, iters := i } [0] childD1 [] hsel rfl,
    collectCtx_full childD1.ctx Option.none cands 3 h]
  rfl

theorem runLoop_succ (P : MCTSParams) (maxc fuel n : ℕ) (st : RunState) :
    runLoop P maxc fuel (n + 1) st =
      (bif (runIter P maxc fuel st).2 then (runIter P maxc fuel st).1
       else runLoop P maxc fuel n (runIter P maxc fuel st).1) := rfl

theorem finish_loop_full (n : ℕ) :
    ∀ (cands : List ReasoningPath) (i : ℕ), 3 ≤ cands.length →
      runLoop finishParams 3 11 n { root := T1, candidates := cands, iters := i } =
        { root := T1, candidates := cands, iters := i + n } := by
  induction n with
  | zero => intro cands i _; rfl
  | succ m ih =>
    intro cands i h
    rw [runLoop_succ, finish_iter_noop cands i h]
    show runLoop finishParams 3 11 m
      { root := T1, candidates := cands, iters := i + 1 } = _
    rw [ih cands (i + 1) h]
    have hn : i + 1 + m = i + (m + 1) := by omega
    rw [hn]

set_option maxHeartbeats 2000000 in
/-- The whole 10-iteration run: one expansion, two further collections of the
same path, seven no-op iterations. -/
theorem finish_runFull :
    runFull finishParams ctxA 10 3 =
      { root := T1, candidates := [p1, p1, p1], iters := 10 } := by
  show runLoop finishParams 3 11 10
    { root := treeA, candidates := [], iters := 0 } = _
  rw [runLoop_succ, finish_iter1]
  show runLoop finishParams 3 11 9
    { root := T1, candidates := [p1], iters := 1 } = _
  rw [runLoop_succ, finish_iter_collect [p1] 1 (by decide)]
  show runLoop finishParams 3 11 8
    { root := T1, candidates := [p1, p1], iters := 2 } = _
  rw [runLoop_succ, finish_iter_collect [p1, p1] 2 (by decide)]
  show runLoop finishParams 3 11 7
    { root := T1, candidates := [p1, p1, p1], iters := 3 } = _
  rw [finish_loop_full 7 [p1, p1, p1] 3 (by decide)]

/-- **C4 (counterexample).**  The end-to-end single-terminal-action run
(3-row 2-column table, planner always proposing `Finish` with a fixed
literal, budget 10, cap 3) returns *three* candidates, not exactly one: the
terminal leaf is re-collected — the same path appended again — on each
iteration until the cap fills. -/
theorem c4_counterexample : (runMCTS finishParams ctxA 10 3).length = 3 := by
  unfold runMCTS
  rw [finish_runFull]
  rfl

/-- **C4 (amended).**  In the end-to-end scenario the root expands once to a
terminal child and subsequent iterations re-select that leaf; each
re-selection *re-collects the same path* (a reference to the one terminal
path object), so the run returns the candidate cap's worth of copies of the
single path: exactly `[p1, p1, p1]`, a terminal path whose final answer is
the fixed literal, after consuming the whole 10-iteration budget. -/
theorem c4_repeated_collection :
    runMCTS finishParams ctxA 10 3 = [p1, p1, p1] ∧
    p1.terminal = true ∧
    p1.final_answer = PyVal.str "42" ∧
    (runFull finishParams ctxA 10 3).iters = 10 := by
  refine ⟨?_, rfl, rfl, ?_⟩
  · unfold runMCTS
    rw [finish_runFull]
    rfl
  · rw [finish_runFull]
